import Mathlib

/-!
Verification development for the core node algorithms of an adaptive radix
trie (ART) implementation.  The Rust source is shallowly embedded: machine
integers become `Nat`, fixed-size arrays become lists of the corresponding
length, `MaybeUninit` slots become `Option`, and operations that panic or rely
on an unchecked `assume` return `Option` (with `none` for the abnormal exit).

The file has two parts: all definitions first, then all theorems.
-/

namespace Blart

/- # Definitions -/

/-- The runtime node classes, from the source enum NodeType. -/
inductive NodeType where
  | node4
  | node16
  | node48
  | node256
  | leafType
deriving DecidableEq, Repr

/-- Upper bound on the number of children per class, from
NodeType::upper_capacity. -/
def NodeType.upperCapacity : NodeType → Nat
  | .node4 => 4
  | .node16 => 16
  | .node48 => 48
  | .node256 => 256
  | .leafType => 0

/-- Model of Rust core::ops::Range over usize: start inclusive, stop
exclusive (the field named end in Rust). -/
structure NatRange where
  start : Nat
  stop : Nat
deriving DecidableEq, Repr

/-- Membership test of a Rust Range: start ≤ n < stop. -/
def NatRange.containsNat (r : NatRange) (n : Nat) : Bool :=
  decide (r.start ≤ n) && decide (n < r.stop)

/-- From NodeType::capacity_range: the literal ranges written in the source,
Node4 ↦ 1..5, Node16 ↦ 5..17, Node48 ↦ 17..49, Node256 ↦ 49..256,
Leaf ↦ 0..0. -/
def NodeType.capacityRange : NodeType → NatRange
  | .node4 => ⟨1, 5⟩
  | .node16 => ⟨5, 17⟩
  | .node48 => ⟨17, 49⟩
  | .node256 => ⟨49, 256⟩
  | .leafType => ⟨0, 0⟩

/-- From NodeType::should_shrink_inner_node; the Leaf arm panics in the
source, modelled as none. -/
def NodeType.shouldShrinkInnerNode : NodeType → Nat → Option Bool
  | .node4, _ => some false
  | .node16, n => some (decide (n ≤ 4))
  | .node48, n => some (decide (n ≤ 16))
  | .node256, n => some (decide (n ≤ 48))
  | .leafType, _ => none

/- ## Compressed inner nodes (Node4 and Node16)

InnerNodeCompressed is modelled with the header fields inlined (prefix and
num_children) plus the two parallel arrays.  The keys array of the source is
fully initialized from construction on (empty() zero-fills it), so it is a
plain list of bytes; child pointer slots use none for MaybeUninit::uninit. -/

/-- Model of InnerNodeCompressed with its header. -/
structure NodeCmp (α : Type) where
  pfx : List Nat
  num : Nat
  keys : List Nat
  ptrs : List (Option α)
deriving DecidableEq

/-- The WritePoint enum from the source. -/
inductive WritePoint where
  | existing (i : Nat)
  | last (i : Nat)
  | shift (i : Nat)
deriving DecidableEq, Repr

/-- Linear scan for the first index holding an equal byte, the body of
InnerNode4::lookup_child_index restricted to the initialized keys. -/
def lookupIdxScan (kf : Nat) : List Nat → Option Nat
  | [] => none
  | k :: ks => if kf = k then some 0 else (lookupIdxScan kf ks).map (· + 1)

/-- InnerNode4::lookup_child_index: scan the initialized portion. -/
def NodeCmp.lookupChildIndex4 (n : NodeCmp α) (kf : Nat) : Option Nat :=
  lookupIdxScan kf (n.keys.take n.num)

/-- The loop of InnerNode4::find_write_point over the initialized keys. -/
def findWritePointLoop (kf : Nat) : List Nat → WritePoint
  | [] => .last 0
  | k :: ks =>
    if kf < k then .shift 0
    else if kf = k then .existing 0
    else
      match findWritePointLoop kf ks with
      | .existing i => .existing (i + 1)
      | .last i => .last (i + 1)
      | .shift i => .shift (i + 1)

/-- InnerNode4::find_write_point. -/
def NodeCmp.findWritePoint4 (n : NodeCmp α) (kf : Nat) : WritePoint :=
  findWritePointLoop kf (n.keys.take n.num)

/-- Little-endian bit list of the mask (1 << num) - 1 truncated to len bits:
bit i is set exactly when i < num. -/
def maskBits (num len : Nat) : List Bool :=
  (List.range len).map (fun i => decide (i < num))

/-- Bits of _mm_movemask_epi8 of a per-lane comparison broadcast against the
whole keys array, ANDed with the mask (1 << num) - 1. -/
def broadcastMaskBits (p : Nat → Bool) (num : Nat) (keys : List Nat) : List Bool :=
  List.zipWith (fun b m => b && m) (keys.map p) (maskBits num keys.length)

/-- The equality broadcast of kf, masked. -/
def eqMaskBits (kf num : Nat) (keys : List Nat) : List Bool :=
  broadcastMaskBits (fun k => decide (kf = k)) num keys

/-- The less-than broadcast of kf (kf < key per lane, unsigned), masked. -/
def ltMaskBits (kf num : Nat) (keys : List Nat) : List Bool :=
  broadcastMaskBits (fun k => decide (kf < k)) num keys

/-- InnerNode16::lookup_child_index: if the masked bitfield is non-zero, the
child index is its number of trailing zeros, i.e. the position of the first
set bit. -/
def NodeCmp.lookupChildIndex16 (n : NodeCmp α) (kf : Nat) : Option Nat :=
  let bitfield := eqMaskBits kf n.num n.keys
  if bitfield.any id then some (bitfield.findIdx id) else none

/-- InnerNode16::find_write_point. -/
def NodeCmp.findWritePoint16 (n : NodeCmp α) (kf : Nat) : WritePoint :=
  match n.lookupChildIndex16 kf with
  | some i => .existing i
  | none =>
    let bitfield := ltMaskBits kf n.num n.keys
    if bitfield.any id then .shift (bitfield.findIdx id) else .last n.num

/-- slice::copy_within(i..num, i+1): entries i..num-1 move up one slot. -/
def copyUp (l : List β) (i num : Nat) : List β :=
  l.take (i + 1) ++ (l.drop i).take (num - i) ++ l.drop (num + 1)

/-- slice::copy_within(i+1..num, i): entries i+1..num-1 move down one slot. -/
def copyDown (l : List β) (i num : Nat) : List β :=
  l.take i ++ (l.drop (i + 1)).take (num - (i + 1)) ++ l.drop (num - 1)

/-- write_child_inner, parameterized by the class's find_write_point.  The
source guards the writes with unchecked assumptions (and copy_within panics
when the range exceeds the array); violating those exits abnormally, which is
modelled by none. -/
def NodeCmp.writeChildInner (fwp : NodeCmp α → Nat → WritePoint)
    (n : NodeCmp α) (kf : Nat) (p : α) : Option (NodeCmp α) :=
  match fwp n kf with
  | .existing i =>
    if i < n.keys.length then
      some { n with keys := n.keys.set i kf, ptrs := n.ptrs.set i (some p) }
    else none
  | .last i =>
    if i < n.keys.length then
      some { n with num := n.num + 1,
                    keys := n.keys.set i kf, ptrs := n.ptrs.set i (some p) }
    else none
  | .shift i =>
    if i < n.num ∧ n.num < n.keys.length ∧ n.num < n.ptrs.length then
      some { n with num := n.num + 1,
                    keys := (copyUp n.keys i n.num).set i kf,
                    ptrs := (copyUp n.ptrs i n.num).set i (some p) }
    else none

/-- remove_child_inner, parameterized by the class's lookup_child_index.  The
outer Option models abnormal exit; the inner Option is the source's return
value (none when the fragment is absent). -/
def NodeCmp.removeChildInner (lookupIdx : NodeCmp α → Nat → Option Nat)
    (n : NodeCmp α) (kf : Nat) : Option (Option α × NodeCmp α) :=
  match lookupIdx n kf with
  | none => some (none, n)
  | some i =>
    if n.num ≤ n.keys.length ∧ n.num ≤ n.ptrs.length then
      match n.ptrs.getD i none with
      | none => none
      | some p =>
        some (some p,
          { n with num := n.num - 1,
                   keys := copyDown n.keys i n.num,
                   ptrs := copyDown (n.ptrs.set i none) i n.num })
    else none

/-- write_child for Node4. -/
def NodeCmp.writeChild4 (n : NodeCmp α) (kf : Nat) (p : α) : Option (NodeCmp α) :=
  n.writeChildInner NodeCmp.findWritePoint4 kf p

/-- write_child for Node16. -/
def NodeCmp.writeChild16 (n : NodeCmp α) (kf : Nat) (p : α) : Option (NodeCmp α) :=
  n.writeChildInner NodeCmp.findWritePoint16 kf p

/-- remove_child for Node4. -/
def NodeCmp.removeChild4 (n : NodeCmp α) (kf : Nat) : Option (Option α × NodeCmp α) :=
  n.removeChildInner NodeCmp.lookupChildIndex4 kf

/-- remove_child for Node16. -/
def NodeCmp.removeChild16 (n : NodeCmp α) (kf : Nat) : Option (Option α × NodeCmp α) :=
  n.removeChildInner NodeCmp.lookupChildIndex16 kf

/-- lookup_child_inner, parameterized by the class's lookup_child_index. -/
def NodeCmp.lookupChildInner (lookupIdx : NodeCmp α → Nat → Option Nat)
    (n : NodeCmp α) (kf : Nat) : Option α :=
  (lookupIdx n kf).bind (fun i => n.ptrs.getD i none)

/-- lookup_child for Node4. -/
def NodeCmp.lookupChild4 (n : NodeCmp α) (kf : Nat) : Option α :=
  n.lookupChildInner NodeCmp.lookupChildIndex4 kf

/-- lookup_child for Node16. -/
def NodeCmp.lookupChild16 (n : NodeCmp α) (kf : Nat) : Option α :=
  n.lookupChildInner NodeCmp.lookupChildIndex16 kf

/-- The structural invariant of a compressed node with capacity cap: the
arrays have the class's size, the first num entries of the keys array are
strictly sorted ascending, and the first num child pointer slots are
initialized (positionally matching the keys). -/
def NodeCmp.inv (cap : Nat) (n : NodeCmp α) : Prop :=
  n.keys.length = cap ∧ n.ptrs.length = cap ∧ n.num ≤ cap ∧
  (n.keys.take n.num).Pairwise (fun a b => a < b) ∧
  ∀ x ∈ n.ptrs.take n.num, x ≠ none

instance instDecidableInvCmp [DecidableEq α] (cap : Nat) (n : NodeCmp α) :
    Decidable (n.inv cap) := by
  unfold NodeCmp.inv
  exact inferInstance

/- ## InnerNode48

The 256-entry child index table holds values 0..47 with 48 as the EMPTY
sentinel (RestrictedNodeIndex<48>); the 48-entry child pointer array uses
none for MaybeUninit::uninit. -/

/-- Model of InnerNode48 with its header. -/
structure Node48 (α : Type) where
  pfx : List Nat
  num : Nat
  childIndices : List Nat
  childPointers : List (Option α)
deriving DecidableEq

/-- InnerNode48::lookup_child: index the table by the key byte; a non-empty
entry selects a slot of the initialized child pointers. -/
def Node48.lookupChild (n : Node48 α) (kf : Nat) : Option α :=
  let idx := n.childIndices.getD kf 48
  if idx ≠ 48 then (n.childPointers.take n.num).getD idx none else none

/-- InnerNode48::write_child.  A full node with an absent fragment hits the
source's assertion, modelled as none. -/
def Node48.writeChild (n : Node48 α) (kf : Nat) (p : α) : Option (Node48 α) :=
  if n.childIndices.getD kf 48 = 48 then
    if n.num < n.childPointers.length then
      some { n with num := n.num + 1,
                    childIndices := n.childIndices.set kf n.num,
                    childPointers := n.childPointers.set n.num (some p) }
    else none
  else
    some { n with childPointers :=
      n.childPointers.set (n.childIndices.getD kf 48) (some p) }

/-- InnerNode48::remove_child: take the pointer out of the referenced slot,
compact the pointer array by one, decrement every table entry greater than
the removed slot, clear the table entry, decrement num_children.  The outer
Option models the abnormal exit (assume/assume_init/copy_within violations);
the inner Option is the source's return value. -/
def Node48.removeChild (n : Node48 α) (kf : Nat) : Option (Option α × Node48 α) :=
  let ri := n.childIndices.getD kf 48
  if ri = 48 then some (none, n)
  else if ri < n.num ∧ n.num ≤ n.childPointers.length then
    match n.childPointers.getD ri none with
    | none => none
    | some p =>
      some (some p,
        { n with num := n.num - 1,
                 childPointers := copyDown (n.childPointers.set ri none) ri n.num,
                 childIndices := (n.childIndices.map
                   (fun e => if ri < e ∧ e ≠ 48 then e - 1 else e)).set kf 48 })
  else none

/-- The structural invariant of a Node48: array sizes, entries of the table
at most the sentinel, every non-empty entry pointing to a slot strictly less
than num_children, distinct non-empty entries pointing to distinct slots, and
the first num_children pointer slots initialized. -/
def Node48.inv (n : Node48 α) : Prop :=
  n.childIndices.length = 256 ∧ n.childPointers.length = 48 ∧ n.num ≤ 48 ∧
  (∀ e ∈ n.childIndices, e ≤ 48) ∧
  (∀ b < 256, n.childIndices.getD b 48 ≠ 48 →
    n.childIndices.getD b 48 < n.num) ∧
  (∀ b1 < 256, ∀ b2 < 256, b1 ≠ b2 →
    n.childIndices.getD b1 48 ≠ 48 →
    n.childIndices.getD b2 48 ≠ 48 →
    n.childIndices.getD b1 48 ≠ n.childIndices.getD b2 48) ∧
  ∀ x ∈ n.childPointers.take n.num, x ≠ none

instance instDecidableInv48 [DecidableEq α] (n : Node48 α) : Decidable n.inv := by
  unfold Node48.inv
  haveI i1 : Decidable (∀ b < 256, n.childIndices.getD b 48 ≠ 48 →
      n.childIndices.getD b 48 < n.num) := Nat.decidableBallLT 256 _
  haveI i2 : Decidable (∀ b1 < 256, ∀ b2 < 256, b1 ≠ b2 →
      n.childIndices.getD b1 48 ≠ 48 →
      n.childIndices.getD b2 48 ≠ 48 →
      n.childIndices.getD b1 48 ≠ n.childIndices.getD b2 48) :=
    @Nat.decidableBallLT 256 _ (fun b1 h1 => Nat.decidableBallLT 256 _)
  exact inferInstance

/- ## InnerNode256 -/

/-- Model of InnerNode256 with its header: a 256-entry nullable pointer
array indexed directly by the key byte. -/
structure Node256 (α : Type) where
  pfx : List Nat
  num : Nat
  childPointers : List (Option α)
deriving DecidableEq

/-- InnerNode256::lookup_child: direct index. -/
def Node256.lookupChild (n : Node256 α) (kf : Nat) : Option α :=
  n.childPointers.getD kf none

/-- InnerNode256::write_child: overwrite the slot; bump num_children only
when the slot was empty. -/
def Node256.writeChild (n : Node256 α) (kf : Nat) (p : α) : Node256 α :=
  { n with childPointers := n.childPointers.set kf (some p),
           num := if (n.childPointers.getD kf none).isNone then n.num + 1 else n.num }

/-- InnerNode256::remove_child: Option::take on the slot; decrement
num_children only when a child was present. -/
def Node256.removeChild (n : Node256 α) (kf : Nat) : Option α × Node256 α :=
  (n.childPointers.getD kf none,
   { n with childPointers := n.childPointers.set kf none,
            num := if (n.childPointers.getD kf none).isSome then n.num - 1 else n.num })

/-- The structural invariant of a Node256: the array has 256 entries and
num_children counts the occupied slots (only the size is needed here). -/
def Node256.inv (n : Node256 α) : Prop :=
  n.childPointers.length = 256 ∧ n.num ≤ 256

/-- Generic first-match scan: index of the first key satisfying p. -/
def firstMatchIdx (p : Nat → Bool) : List Nat → Option Nat
  | [] => none
  | k :: ks => if p k then some 0 else (firstMatchIdx p ks).map (· + 1)

/-- Characterization of a write point against the initialized keys keys0:
an existing hit names a position holding the fragment; a shift names the
position of the first strictly greater key, all earlier keys being smaller;
a last append means every initialized key is smaller. -/
def WPChar (keys0 : List Nat) (kf : Nat) : WritePoint → Prop
  | .existing i => i < keys0.length ∧ keys0.getD i 0 = kf ∧ ∀ x ∈ keys0.take i, x ≠ kf
  | .shift i => i < keys0.length ∧ kf < keys0.getD i 0 ∧ ∀ x ∈ keys0.take i, x < kf
  | .last i => i = keys0.length ∧ ∀ x ∈ keys0, x < kf

/-- A concrete Node16 with three children, used as witness input. -/
def node16Example : NodeCmp Nat :=
  { pfx := [1, 2], num := 3,
    keys := [3, 7, 9, 0, 0, 0, 0, 0, 0, 0, 0, 0, 0, 0, 0, 0],
    ptrs := [some 10, some 20, some 30, none, none, none, none, none,
             none, none, none, none, none, none, none, none] }

/-- A concrete Node4 with two children, used as witness input. -/
def node4Example : NodeCmp Nat :=
  { pfx := [], num := 2, keys := [3, 7, 0, 0], ptrs := [some 1, some 2, none, none] }

/-- The Node4 obtained from node4Example by shift-inserting fragment 5. -/
def node4ExampleW : NodeCmp Nat :=
  { pfx := [], num := 3, keys := [3, 5, 7, 0], ptrs := [some 1, some 9, some 2, none] }

/-- A concrete Node48 with two children, used as witness input. -/
def node48Example : Node48 Nat :=
  { pfx := [1], num := 2,
    childIndices := ((List.replicate 256 48).set 5 0).set 9 1,
    childPointers := ((List.replicate 48 (none : Option Nat)).set 0 (some 10)).set 1 (some 20) }

/- ## Growing and shrinking -/

/-- InnerNodeCompressed::change_block_size: clone the header and copy the
initialized keys and child pointers into a fresh block of the new size; the
assertion (the children must fit) and the copy slice bounds are modelled as
the none result. -/
def NodeCmp.changeBlockSize (newSize : Nat) (n : NodeCmp α) : Option (NodeCmp α) :=
  if n.num ≤ newSize ∧ n.num ≤ n.keys.length ∧ n.num ≤ n.ptrs.length then
    some { pfx := n.pfx, num := n.num,
           keys := n.keys.take n.num ++ List.replicate (newSize - n.num) 0,
           ptrs := n.ptrs.take n.num ++ List.replicate (newSize - n.num) none }
  else none

/-- The table-filling loop of grow_node48 and InnerNode256::shrink: the head
key byte sets its table entry to the current slot number i, and the rest of
the key bytes take the following slots. -/
def writeIndicesFrom (t : List Nat) (i : Nat) : List Nat → List Nat
  | [] => t
  | k :: ks => writeIndicesFrom (t.set k i) (i + 1) ks

/-- InnerNodeCompressed::grow_node48: asserts the node is full, builds the
256-entry index table by enumerating the initialized keys, and copies the
child pointers; the assertion is modelled as the none result. -/
def NodeCmp.growNode48 (n : NodeCmp α) : Option (Node48 α) :=
  if n.num = n.keys.length ∧ n.num ≤ n.ptrs.length then
    some { pfx := n.pfx, num := n.num,
           childIndices := writeIndicesFrom (List.replicate 256 48) 0 (n.keys.take n.num),
           childPointers := n.ptrs.take n.num ++ List.replicate (48 - n.num) none }
  else none

/-- InnerNode48::grow: start from an all-None 256-entry array; every
non-empty index table entry writes its referenced child pointer into the
slot named by its key byte. -/
def Node48.grow (n : Node48 α) : Node256 α :=
  { pfx := n.pfx, num := n.num,
    childPointers := (List.range 256).map (fun b =>
      if n.childIndices.getD b 48 ≠ 48 then
        (n.childPointers.take n.num).getD (n.childIndices.getD b 48) none
      else none) }

/-- Modelled from the spec: InnerNode48Iter scans the 256-entry index table
in ascending key-byte order and yields, for every non-empty entry, the key
byte paired with the referenced initialized child pointer; the file defining
that iterator is not part of this tree. -/
def Node48.childrenPairs (n : Node48 α) : List (Nat × Option α) :=
  (List.range 256).filterMap (fun b =>
    if n.childIndices.getD b 48 ≠ 48 then
      some (b, (n.childPointers.take n.num).getD (n.childIndices.getD b 48) none)
    else none)

/-- Insertion step of the sort used by InnerNode48::shrink. -/
def insertByKey (x : Nat × Option α) : List (Nat × Option α) → List (Nat × Option α)
  | [] => [x]
  | y :: ys => if x.1 ≤ y.1 then x :: y :: ys else y :: insertByKey x ys

/-- A sort by key byte, modelling sort_unstable_by_key on the first
component of the collected pairs. -/
def sortByKey : List (Nat × Option α) → List (Nat × Option α)
  | [] => []
  | x :: xs => insertByKey x (sortByKey xs)

/-- InnerNode48::shrink: assert at most 16 children, collect the iterator's
pairs into the first num_children slots, sort them by key byte, and write
keys and pointers positionally into a fresh Node16 block.  An iterator that
yields a different number of pairs than num_children leaves part of the
sorted slice uninitialized or writes out of bounds, modelled as the none
result. -/
def Node48.shrink (n : Node48 α) : Option (NodeCmp α) :=
  if n.num ≤ 16 ∧ n.childrenPairs.length = n.num then
    some { pfx := n.pfx, num := n.num,
           keys := (sortByKey n.childrenPairs).map Prod.fst
             ++ List.replicate (16 - n.childrenPairs.length) 0,
           ptrs := (sortByKey n.childrenPairs).map Prod.snd
             ++ List.replicate (16 - n.childrenPairs.length) none }
  else none

/-- Modelled from the spec: InnerNode256Iter scans the 256 slots in
ascending byte order and yields the present (key byte, child pointer)
pairs; the file defining that iterator is not part of this tree. -/
def Node256.childrenPairs (n : Node256 α) : List (Nat × Option α) :=
  (List.range 256).filterMap (fun b =>
    (n.childPointers.getD b none).map (fun p => (b, some p)))

/-- InnerNode256::shrink: assert at most 48 children; enumerate the present
pairs in byte order, assigning pointer slots 0, 1, 2, … and filling the
index table.  More than 48 present slots makes the index conversion panic,
modelled as the none result. -/
def Node256.shrink (n : Node256 α) : Option (Node48 α) :=
  if n.num ≤ 48 ∧ n.childrenPairs.length ≤ 48 then
    some { pfx := n.pfx, num := n.num,
           childIndices := writeIndicesFrom (List.replicate 256 48) 0
             (n.childrenPairs.map Prod.fst),
           childPointers := (n.childrenPairs.map Prod.snd)
             ++ List.replicate (48 - n.childrenPairs.length) none }
  else none

/-- The Node16 obtained from node4Example by change_block_size. -/
def node4Grown : NodeCmp Nat :=
  { pfx := [], num := 2,
    keys := [3, 7] ++ List.replicate 14 0,
    ptrs := [some 1, some 2] ++ List.replicate 14 none }

/- ## Node48 minimum and maximum -/

/-- Little-endian bits of simd_eq against the splatted EMPTY sentinel 48:
bit i is set exactly when lane i holds an empty entry. -/
def emptyMaskBits (l : List Nat) : List Bool :=
  l.map (fun e => decide (e = 48))

/-- u64::trailing_ones of a bitmask given as its little-endian bit list. -/
def trailingOnes (bs : List Bool) : Nat :=
  (bs.takeWhile id).length

/-- u64::leading_ones of a bitmask given as its little-endian bit list. -/
def leadingOnes (bs : List Bool) : Nat :=
  trailingOnes bs.reverse

/-- The SIMD InnerNode48::min: compare the four 64-byte chunks of the index
table against the splatted sentinel, pick the first chunk whose bitmask is
not all ones, and take its trailing-ones count as the key byte; the unchecked
assume on the key bound is modelled as the none result. -/
def Node48.minSimd (n : Node48 α) : Option (Nat × Option α) :=
  let t := n.childIndices
  let key :=
    if (emptyMaskBits (t.take 64)).all id = false then
      trailingOnes (emptyMaskBits (t.take 64))
    else if (emptyMaskBits ((t.drop 64).take 64)).all id = false then
      trailingOnes (emptyMaskBits ((t.drop 64).take 64)) + 64
    else if (emptyMaskBits ((t.drop 128).take 64)).all id = false then
      trailingOnes (emptyMaskBits ((t.drop 128).take 64)) + 128
    else
      trailingOnes (emptyMaskBits ((t.drop 192).take 64)) + 192
  if key < t.length then
    some (key, (n.childPointers.take n.num).getD (t.getD key 48) none)
  else none

/-- The SIMD InnerNode48::max: compare the four 64-byte chunks against the
splatted sentinel, pick the last chunk whose bitmask is not all ones, and
subtract its leading-ones count from the chunk's top byte; the unchecked
assume on the key bound is modelled as the none result. -/
def Node48.maxSimd (n : Node48 α) : Option (Nat × Option α) :=
  let t := n.childIndices
  let key :=
    if (emptyMaskBits ((t.drop 192).take 64)).all id = false then
      255 - leadingOnes (emptyMaskBits ((t.drop 192).take 64))
    else if (emptyMaskBits ((t.drop 128).take 64)).all id = false then
      191 - leadingOnes (emptyMaskBits ((t.drop 128).take 64))
    else if (emptyMaskBits ((t.drop 64).take 64)).all id = false then
      127 - leadingOnes (emptyMaskBits ((t.drop 64).take 64))
    else
      63 - leadingOnes (emptyMaskBits (t.take 64))
  if key < t.length then
    some (key, (n.childPointers.take n.num).getD (t.getD key 48) none)
  else none

/-- The scalar InnerNode48::min: scan the 256-entry index table forward to
the first non-empty entry; an all-empty table hits unreachable, modelled as
the none result. -/
def Node48.minScalar (n : Node48 α) : Option (Nat × Option α) :=
  match firstMatchIdx (fun e => decide (e ≠ 48)) n.childIndices with
  | some key =>
    some (key, (n.childPointers.take n.num).getD (n.childIndices.getD key 48) none)
  | none => none

/-- The scalar InnerNode48::max: scan the 256-entry index table backward to
the first non-empty entry; an all-empty table hits unreachable, modelled as
the none result. -/
def Node48.maxScalar (n : Node48 α) : Option (Nat × Option α) :=
  match firstMatchIdx (fun e => decide (e ≠ 48)) n.childIndices.reverse with
  | some k =>
    some (n.childIndices.length - 1 - k,
      (n.childPointers.take n.num).getD
        (n.childIndices.getD (n.childIndices.length - 1 - k) 48) none)
  | none => none

/- ## Whole-trie model: search and iteration -/

/-- Modelled from the spec: a trie node is either a leaf carrying the full
byte view of its key together with the value, or an inner node carrying its
header prefix and its children as (key byte, child) pairs in the node's
key-byte order; the concrete node classes refine this child list (their
lookup and ordering behaviour is verified against the class code above). -/
inductive ARTree (α : Type) where
  | leaf (key : List Nat) (val : α)
  | inner (pfx : List Nat) (children : List (Nat × ARTree α))

mutual

/-- Modelled from the spec: search/descend.  At a leaf, compare the stored
key with the query under the byte-view equivalence.  At an inner node, match
the header prefix at the current depth, advance the depth, take the key byte
there (a key with no further byte is not found), look up the child for that
byte and recurse; a missing child is not found. -/
def ARTree.search : ARTree α → List Nat → Nat → Option α
  | .leaf k v, key, _ => if k = key then some v else none
  | .inner pfx children, key, depth =>
    if (key.drop depth).take pfx.length = pfx then
      match key[depth + pfx.length]? with
      | none => none
      | some b => ARTree.searchChildren children b key (depth + pfx.length + 1)
    else none

/-- Modelled from the spec: the child lookup of search over the (key byte,
child) pairs, recursing into the matching child. -/
def ARTree.searchChildren : List (Nat × ARTree α) → Nat → List Nat → Nat → Option α
  | [], _, _, _ => none
  | (kb, c) :: rest, b, key, depth =>
    if kb = b then ARTree.search c key depth
    else ARTree.searchChildren rest b key depth

end

mutual

/-- The stored leaves of a trie in node order: key byte view paired with the
value. -/
def ARTree.leavesOf : ARTree α → List (List Nat × α)
  | .leaf k v => [(k, v)]
  | .inner _ children => ARTree.leavesOfChildren children

/-- The leaves stored under a child list, in list order. -/
def ARTree.leavesOfChildren : List (Nat × ARTree α) → List (List Nat × α)
  | [] => []
  | (_, c) :: rest => c.leavesOf ++ ARTree.leavesOfChildren rest

end

/-- First child stored under the given key byte. -/
def findChild : List (Nat × ARTree α) → Nat → Option (ARTree α)
  | [], _ => none
  | (kb, c) :: rest, b => if kb = b then some c else findChild rest b

/-- Modelled from the spec: the structural invariants of a trie rooted at
byte path p.  Every leaf key extends the path to it; the child bytes of an
inner node are strictly ascending; each child is well formed at the path
extended by the node prefix and its key byte. -/
inductive ARTree.wf : ARTree α → List Nat → Prop where
  | leaf : ∀ (k : List Nat) (v : α) (p : List Nat),
      k.take p.length = p → ARTree.wf (.leaf k v) p
  | inner : ∀ (pfx : List Nat) (children : List (Nat × ARTree α)) (p : List Nat),
      (children.map Prod.fst).Pairwise (fun a c => a < c) →
      (∀ b c, (b, c) ∈ children → ARTree.wf c (p ++ pfx ++ [b])) →
      ARTree.wf (.inner pfx children) p

/-- One transition of InnerNodeTreeIterator::next's while loop: with an
empty deque stop; pop an exhausted front cursor; advancing the front cursor
returns a leaf child or pushes a fresh cursor at the beginning of an inner
child onto the front.  A cursor is the remaining (key byte, child) pairs of
its node in key-byte order. -/
def stepF : List (List (Nat × ARTree α)) →
    Option (Option (List Nat × α) × List (List (Nat × ARTree α)))
  | [] => none
  | [] :: rest => some (none, rest)
  | ((_, c) :: cur) :: rest =>
    match c with
    | .leaf k v => some (some (k, v), cur :: rest)
    | .inner _ children => some (none, children :: cur :: rest)

/-- One transition of InnerNodeTreeIterator::next_back's while loop, in the
mirrored presentation: the deque is kept back-to-front and every cursor
holds its remaining pairs back-to-front, so advancing the back cursor is
advancing the head here, and a fresh cursor pushed at the back starts at
the inner child's end. -/
def stepB : List (List (Nat × ARTree α)) →
    Option (Option (List Nat × α) × List (List (Nat × ARTree α)))
  | [] => none
  | [] :: rest => some (none, rest)
  | ((_, c) :: cur) :: rest =>
    match c with
    | .leaf k v => some (some (k, v), cur :: rest)
    | .inner _ children => some (none, children.reverse :: cur :: rest)

/-- Run the iterator loop for at most fuel transitions, collecting the
yielded leaves. -/
def consume
    (step : List (List (Nat × ARTree α)) →
      Option (Option (List Nat × α) × List (List (Nat × ARTree α)))) :
    Nat → List (List (Nat × ARTree α)) → List (List Nat × α)
  | 0, _ => []
  | fuel + 1, dq =>
    match step dq with
    | none => []
    | some (some x, dq2) => x :: consume step fuel dq2
    | some (none, dq2) => consume step fuel dq2

/-- The leaves a forward iterator state will still yield. -/
def dequeLeaves (dq : List (List (Nat × ARTree α))) : List (List Nat × α) :=
  (dq.map ARTree.leavesOfChildren).flatten

/-- The leaves a mirrored backward cursor will still yield. -/
def backCursorLeaves (cur : List (Nat × ARTree α)) : List (List Nat × α) :=
  (cur.map (fun pair => (pair.2.leavesOf).reverse)).flatten

/-- The leaves a mirrored backward iterator state will still yield. -/
def dequeLeavesB (dq : List (List (Nat × ARTree α))) : List (List Nat × α) :=
  (dq.map backCursorLeaves).flatten

/-- The children of the root of the two-level test tree: two Node4s with
prefixes [5,6] and [7,8] under key bytes 3 and 4, holding four leaves. -/
def exampleChildren : List (Nat × ARTree Nat) :=
  [(3, .inner [5, 6]
      [(1, .leaf [1, 2, 3, 5, 6, 1] 123561), (2, .leaf [1, 2, 3, 5, 6, 2] 123562)]),
   (4, .inner [7, 8]
      [(3, .leaf [1, 2, 4, 7, 8, 3] 124783), (4, .leaf [1, 2, 4, 7, 8, 4] 124784)])]

/-- The two-level tree of the lookup test: a Node16 with prefix [1,2] over
the two Node4s. -/
def exampleTree : ARTree Nat :=
  .inner [1, 2] exampleChildren

/- # Theorems -/

/-- C9: should_shrink_inner_node returns true exactly when the child count is
at or below the lower threshold of the class (4 for Node16, 16 for Node48,
48 for Node256) and always returns false for Node4. -/
theorem shouldShrink_spec (n : Nat) :
    NodeType.shouldShrinkInnerNode .node4 n = some false ∧
    (NodeType.shouldShrinkInnerNode .node16 n = some true ↔ n ≤ 4) ∧
    (NodeType.shouldShrinkInnerNode .node48 n = some true ↔ n ≤ 16) ∧
    (NodeType.shouldShrinkInnerNode .node256 n = some true ↔ n ≤ 48) := by
  refine ⟨rfl, ?_, ?_, ?_⟩ <;> simp [NodeType.shouldShrinkInnerNode]

/-- C5: capacity_range deviates from the stated ranges at both ends: the
Node4 range admits a child count of 1 (the spec and the variant documentation
say the minimum is 2), and the Node256 range, written with an exclusive end of
256, rejects the count 256 even though upper_capacity for Node256 is 256. -/
theorem capacityRange_bug :
    (NodeType.capacityRange .node4).containsNat 1 = true ∧
    (NodeType.capacityRange .node256).containsNat 256 = false ∧
    NodeType.upperCapacity .node256 = 256 ∧
    (NodeType.capacityRange .node256).containsNat 255 = true := by
  decide

/- ## Bitfield lemmas: the masked movemask plus trailing-zero count agrees
with a scan of the initialized portion of the keys array. -/

theorem maskBits_succ (num len : Nat) :
    maskBits num (len + 1) = decide (0 < num) :: maskBits (num - 1) len := by
  simp only [maskBits, List.range_succ_eq_map, List.map_cons, List.map_map]
  congr 1
  apply List.map_congr_left
  intro i _
  simp only [Function.comp_apply]
  exact decide_eq_decide.mpr (by omega)

theorem broadcastMaskBits_cons (p : Nat → Bool) (num k : Nat) (ks : List Nat) :
    broadcastMaskBits p num (k :: ks) =
      (p k && decide (0 < num)) :: broadcastMaskBits p (num - 1) ks := by
  simp only [broadcastMaskBits, List.map_cons, List.length_cons, maskBits_succ,
    List.zipWith_cons_cons]

theorem broadcastMaskBits_zero_any (p : Nat → Bool) (l : List Nat) :
    (broadcastMaskBits p 0 l).any id = false := by
  induction l with
  | nil => rfl
  | cons k ks ih =>
    rw [broadcastMaskBits_cons]
    simpa using ih

theorem broadcast_first_eq_scan (p : Nat → Bool) (keys : List Nat) (num : Nat) :
    (if (broadcastMaskBits p num keys).any id
     then some ((broadcastMaskBits p num keys).findIdx id) else none)
      = firstMatchIdx p (keys.take num) := by
  induction keys generalizing num with
  | nil => simp [broadcastMaskBits, maskBits, firstMatchIdx]
  | cons k ks ih =>
    rw [broadcastMaskBits_cons]
    cases num with
    | zero =>
      simp [broadcastMaskBits_zero_any p ks, firstMatchIdx]
    | succ m =>
      rw [List.take_succ_cons]
      by_cases hp : p k = true
      · simp [hp, List.findIdx_cons, firstMatchIdx]
      · have hp1 : p k = false := by simpa using hp
        rw [show ((m : Nat) + 1 - 1) = m from rfl]
        rw [show firstMatchIdx p (k :: ks.take m)
              = (firstMatchIdx p (ks.take m)).map (· + 1) by
            simp [firstMatchIdx, hp1]]
        rw [← ih m]
        cases hany : (broadcastMaskBits p m ks).any id <;>
          simp [hp1, hany, List.findIdx_cons]

theorem lookupIdxScan_eq_firstMatch (kf : Nat) (l : List Nat) :
    lookupIdxScan kf l = firstMatchIdx (fun k => decide (kf = k)) l := by
  induction l with
  | nil => rfl
  | cons k ks ih => simp [lookupIdxScan, firstMatchIdx, ih]

/-- The SIMD lookup of Node16 agrees unconditionally with the linear scan of
the initialized keys: masking by (1 << num) - 1 discards the lanes beyond
num_children. -/
theorem lookupChildIndex16_eq_scan (n : NodeCmp α) (kf : Nat) :
    n.lookupChildIndex16 kf = lookupIdxScan kf (n.keys.take n.num) := by
  unfold NodeCmp.lookupChildIndex16
  rw [lookupIdxScan_eq_firstMatch]
  exact broadcast_first_eq_scan _ n.keys n.num

/-- C6: for every Node16 (keys array of size 16, any number of initialised
children up to 16) and every key fragment, the SIMD equality-broadcast lookup
masked by (1 << num_children) - 1, taking the lowest set bit, returns exactly
the same optional child index as the linear scan over the initialised keys
used by Node4. -/
theorem node16_simd_lookup_refines_scan (α : Type) (n : NodeCmp α) (kf : Nat)
    (hlen : n.keys.length = 16) (hnum : n.num ≤ 16) :
    n.lookupChildIndex16 kf = n.lookupChildIndex4 kf := by
  rw [lookupChildIndex16_eq_scan]
  rfl

/-- Witness for C6 at a concrete Node16. -/
theorem node16_simd_lookup_refines_scan_witness :
    node16Example.lookupChildIndex16 7 = node16Example.lookupChildIndex4 7 :=
  node16_simd_lookup_refines_scan Nat node16Example 7 (by decide) (by decide)

/- ## List plumbing for the array edits of the compressed nodes -/

theorem take_set_of_le (l : List β) (i j : Nat) (a : β) (h : j ≤ i) :
    (l.set i a).take j = l.take j := by
  induction l generalizing i j with
  | nil => simp
  | cons x xs ih =>
    cases i with
    | zero =>
      have : j = 0 := Nat.le_zero.mp h
      simp [this]
    | succ m =>
      cases j with
      | zero => simp
      | succ jm => simp [List.set_cons_succ, ih m jm (by omega)]

theorem take_set_last (l : List β) (i : Nat) (a : β) (h : i < l.length) :
    (l.set i a).take (i + 1) = l.take i ++ [a] := by
  induction l generalizing i with
  | nil => simp at h
  | cons x xs ih =>
    cases i with
    | zero => simp
    | succ m => simp [List.set_cons_succ, ih m (by simpa using h)]

theorem set_take_last (l : List β) (i : Nat) (a : β) (h : i < l.length) :
    (l.take (i + 1)).set i a = l.take i ++ [a] := by
  induction l generalizing i with
  | nil => simp at h
  | cons x xs ih =>
    cases i with
    | zero => simp
    | succ m => simp [List.set_cons_succ, ih m (by simpa using h)]

theorem set_self_of_getElem (l : List β) (i : Nat) (a : β) (h : i < l.length)
    (ha : l[i] = a) : l.set i a = l := by
  subst ha
  induction l generalizing i with
  | nil => simp
  | cons x xs ih =>
    cases i with
    | zero => simp
    | succ m => simp [List.set_cons_succ, ih m (by simpa using h)]

theorem copyUp_length (l : List β) (i num : Nat) (h1 : i ≤ num)
    (h2 : num < l.length) : (copyUp l i num).length = l.length := by
  simp [copyUp]
  omega

theorem copyDown_length (l : List β) (i num : Nat) (h1 : i < num)
    (h2 : num ≤ l.length) : (copyDown l i num).length = l.length := by
  simp [copyDown]
  omega

theorem copyUp_set_take (l : List β) (a : β) (i num : Nat)
    (h1 : i ≤ num) (h2 : num < l.length) :
    ((copyUp l i num).set i a).take (num + 1)
      = (l.take num).take i ++ a :: (l.take num).drop i := by
  have hi : i < l.length := lt_of_le_of_lt h1 h2
  rw [copyUp, List.append_assoc,
    List.set_append_left i a (by simp; omega),
    set_take_last l i a hi,
    List.take_append_eq_append_take,
    List.take_of_length_le (l := l.take i ++ [a]) (by simp; omega),
    List.take_append_eq_append_take,
    List.take_of_length_le (l := (l.drop i).take (num - i)) (by simp; omega)]
  have hz : num + 1 - (l.take i ++ [a]).length - ((l.drop i).take (num - i)).length = 0 := by
    simp
    omega
  rw [hz, List.take_zero, List.append_nil, List.take_take,
    Nat.min_eq_left h1, List.drop_take]
  simp

theorem copyDown_take (l : List β) (i num : Nat)
    (h1 : i < num) (h2 : num ≤ l.length) :
    (copyDown l i num).take (num - 1) = (l.take num).eraseIdx i := by
  rw [copyDown, List.eraseIdx_eq_take_drop_succ, List.append_assoc,
    List.take_append_eq_append_take,
    List.take_of_length_le (l := l.take i) (by simp; omega),
    List.take_append_eq_append_take,
    List.take_of_length_le (l := (l.drop (i + 1)).take (num - (i + 1))) (by simp; omega)]
  have hz : num - 1 - (l.take i).length - ((l.drop (i + 1)).take (num - (i + 1))).length = 0 := by
    simp
    omega
  rw [hz, List.take_zero, List.append_nil, List.take_take,
    Nat.min_eq_left (by omega), List.drop_take]

theorem copyDown_set_take (l : List β) (b : β) (i num : Nat)
    (h1 : i < num) (h2 : num ≤ l.length) :
    (copyDown (l.set i b) i num).take (num - 1) = (l.take num).eraseIdx i := by
  rw [copyDown_take _ _ _ h1 (by simpa using h2)]
  rw [List.eraseIdx_eq_take_drop_succ, List.eraseIdx_eq_take_drop_succ]
  have e1 : ((l.set i b).take num).take i = (l.set i b).take i := by
    rw [List.take_take, Nat.min_eq_left (by omega)]
  have e2 : (l.take num).take i = l.take i := by
    rw [List.take_take, Nat.min_eq_left (by omega)]
  rw [e1, e2, take_set_of_le l i i b le_rfl, List.drop_take, List.drop_take]
  congr 1
  rw [List.drop_set]
  simp

theorem take_set_mem (l : List β) (i m : Nat) (v x : β)
    (hx : x ∈ (l.set i v).take m) : x = v ∨ x ∈ l.take m := by
  rw [List.mem_iff_getElem] at hx
  obtain ⟨j, hj, hxe⟩ := hx
  have hj2 : j < (l.set i v).length := by
    have := hj
    simp at this
    simp
    omega
  rw [List.getElem_take, List.getElem_set] at hxe
  split at hxe
  · exact Or.inl hxe.symm
  · right
    rw [List.mem_iff_getElem]
    have hjl : j < l.length := by simpa using hj2
    have hjt : j < (l.take m).length := by
      have := hj
      simp at this ⊢
      omega
    exact ⟨j, hjt, by rw [List.getElem_take]; exact hxe⟩

/- ## Characterization of the write points -/

theorem findWritePointLoop_char (kf : Nat) (l : List Nat) :
    WPChar l kf (findWritePointLoop kf l) := by
  induction l with
  | nil => exact ⟨rfl, by simp⟩
  | cons k ks ih =>
    rw [findWritePointLoop]
    by_cases hlt : kf < k
    · simp only [if_pos hlt]
      exact ⟨by simp, by simpa using hlt, by simp⟩
    · by_cases heq : kf = k
      · simp only [if_neg hlt, if_pos heq]
        exact ⟨by simp, by simpa using heq.symm, by simp⟩
      · have hgt : k < kf := by omega
        simp only [if_neg hlt, if_neg heq]
        cases hm : findWritePointLoop kf ks with
        | existing i =>
          rw [hm] at ih
          obtain ⟨h1, h2, h3⟩ := ih
          refine ⟨by simp; omega, by simpa using h2, ?_⟩
          intro x hx
          rw [List.take_succ_cons] at hx
          rcases List.mem_cons.mp hx with rfl | hx2
          · omega
          · exact h3 x hx2
        | shift i =>
          rw [hm] at ih
          obtain ⟨h1, h2, h3⟩ := ih
          refine ⟨by simp; omega, by simpa using h2, ?_⟩
          intro x hx
          rw [List.take_succ_cons] at hx
          rcases List.mem_cons.mp hx with rfl | hx2
          · exact hgt
          · exact h3 x hx2
        | last i =>
          rw [hm] at ih
          obtain ⟨h1, h2⟩ := ih
          refine ⟨by simp [h1], ?_⟩
          intro x hx
          rcases List.mem_cons.mp hx with rfl | hx2
          · exact hgt
          · exact h2 x hx2

theorem firstMatchIdx_none_char (p : Nat → Bool) (l : List Nat)
    (h : firstMatchIdx p l = none) : ∀ x ∈ l, p x = false := by
  induction l with
  | nil => simp
  | cons k ks ih =>
    rw [firstMatchIdx] at h
    intro x hx
    by_cases hp : p k = true
    · simp [hp] at h
    · rcases List.mem_cons.mp hx with rfl | hx2
      · simpa using hp
      · have hks : firstMatchIdx p ks = none := by
          by_contra hne
          cases hfm : firstMatchIdx p ks with
          | none => exact hne hfm
          | some j => simp [hp, hfm] at h
        exact ih hks x hx2

theorem firstMatchIdx_some_char (p : Nat → Bool) (l : List Nat) (i : Nat)
    (h : firstMatchIdx p l = some i) :
    i < l.length ∧ p (l.getD i 0) = true ∧ ∀ x ∈ l.take i, p x = false := by
  induction l generalizing i with
  | nil => simp [firstMatchIdx] at h
  | cons k ks ih =>
    rw [firstMatchIdx] at h
    by_cases hp : p k = true
    · simp only [if_pos hp] at h
      cases h
      exact ⟨by simp, by simpa using hp, by simp⟩
    · simp only [if_neg hp] at h
      cases hfm : firstMatchIdx p ks with
      | none => rw [hfm] at h; simp at h
      | some j =>
        rw [hfm] at h
        simp only [Option.map_some'] at h
        cases h
        obtain ⟨h1, h2, h3⟩ := ih j hfm
        refine ⟨by simp; omega, by simpa using h2, ?_⟩
        intro x hx
        rw [List.take_succ_cons] at hx
        rcases List.mem_cons.mp hx with rfl | hx2
        · simpa using hp
        · exact h3 x hx2

theorem findWritePoint4_char (n : NodeCmp α) (kf : Nat) :
    WPChar (n.keys.take n.num) kf (n.findWritePoint4 kf) :=
  findWritePointLoop_char kf (n.keys.take n.num)

theorem findWritePoint16_char (n : NodeCmp α) (kf : Nat)
    (hn : n.num ≤ n.keys.length) :
    WPChar (n.keys.take n.num) kf (n.findWritePoint16 kf) := by
  unfold NodeCmp.findWritePoint16
  cases hl : n.lookupChildIndex16 kf with
  | some i =>
    rw [lookupChildIndex16_eq_scan, lookupIdxScan_eq_firstMatch] at hl
    obtain ⟨h1, h2, h3⟩ := firstMatchIdx_some_char _ _ _ hl
    refine ⟨h1, (of_decide_eq_true h2).symm, ?_⟩
    intro x hx
    have := h3 x hx
    simp at this
    omega
  | none =>
    rw [lookupChildIndex16_eq_scan, lookupIdxScan_eq_firstMatch] at hl
    have hne := firstMatchIdx_none_char _ _ hl
    have hlt := broadcast_first_eq_scan (fun k => decide (kf < k)) n.keys n.num
    show WPChar _ kf (if (ltMaskBits kf n.num n.keys).any id
      then WritePoint.shift ((ltMaskBits kf n.num n.keys).findIdx id)
      else WritePoint.last n.num)
    rw [show ltMaskBits kf n.num n.keys
        = broadcastMaskBits (fun k => decide (kf < k)) n.num n.keys from rfl]
    cases hany : (broadcastMaskBits (fun k => decide (kf < k)) n.num n.keys).any id with
    | true =>
      simp only [hany, eq_self_iff_true, if_true] at hlt ⊢
      cases hfm : firstMatchIdx (fun k => decide (kf < k)) (n.keys.take n.num) with
      | none => rw [hfm] at hlt; simp at hlt
      | some i =>
        rw [hfm] at hlt
        obtain rfl : (broadcastMaskBits (fun k => decide (kf < k)) n.num n.keys).findIdx id = i := by
          simpa using hlt
        obtain ⟨h1, h2, h3⟩ := firstMatchIdx_some_char _ _ _ hfm
        refine ⟨h1, by simpa using h2, ?_⟩
        intro x hx
        have hxk : ¬ (kf = x) := by simpa using hne x (List.mem_of_mem_take hx)
        have hxl : ¬ (kf < x) := by simpa using h3 x hx
        omega
    | false =>
      simp only [hany, Bool.false_eq_true, if_false] at hlt ⊢
      have hall := firstMatchIdx_none_char _ _ hlt.symm
      refine ⟨by simp [Nat.min_eq_left hn], ?_⟩
      intro x hx
      have h1 : ¬ (kf = x) := by simpa using hne x hx
      have h2 : ¬ (kf < x) := by simpa using hall x hx
      omega

/- ## Invariant preservation for the compressed nodes -/

theorem writeChildInner_preserves_inv (cap : Nat) (fwp : NodeCmp α → Nat → WritePoint)
    (n n2 : NodeCmp α) (kf : Nat) (p : α)
    (hinv : n.inv cap) (hchar : WPChar (n.keys.take n.num) kf (fwp n kf))
    (hw : n.writeChildInner fwp kf p = some n2) : n2.inv cap := by
  obtain ⟨hkl, hpl, hnum, hsort, hinit⟩ := hinv
  have hnl : n.num ≤ n.keys.length := by omega
  have hlen0 : (n.keys.take n.num).length = n.num := by simp [Nat.min_eq_left hnl]
  unfold NodeCmp.writeChildInner at hw
  split at hw
  case _ i hfw =>
    rw [hfw] at hchar
    obtain ⟨hi, hval, _⟩ := hchar
    rw [hlen0] at hi
    rw [if_pos (by omega)] at hw
    cases hw
    have hkeq : n.keys.set i kf = n.keys := by
      apply set_self_of_getElem _ _ _ (by omega)
      have hilt : i < (n.keys.take n.num).length := by omega
      have : (n.keys.take n.num).getD i 0 = (n.keys.take n.num).get ⟨i, hilt⟩ :=
        List.getD_eq_getElem _ _ hilt
      rw [this, List.get_eq_getElem, List.getElem_take] at hval
      exact hval
    refine ⟨by simp [hkeq, hkl], by simp [hpl], hnum, by simp [hkeq, hsort], ?_⟩
    intro x hx
    rcases take_set_mem _ _ _ _ _ hx with rfl | hx2
    · simp
    · exact hinit x hx2
  case _ i hfw =>
    rw [hfw] at hchar
    obtain ⟨hi, hall⟩ := hchar
    rw [hlen0] at hi
    subst hi
    by_cases hfull : n.num < n.keys.length
    · rw [if_pos hfull] at hw
      cases hw
      have hfullp : n.num < n.ptrs.length := by omega
      refine ⟨by simp [hkl], by simp [hpl], show n.num + 1 ≤ cap by omega, ?_, ?_⟩
      · show ((n.keys.set n.num kf).take (n.num + 1)).Pairwise (fun a b => a < b)
        rw [take_set_last _ _ _ hfull, List.pairwise_append]
        exact ⟨hsort, by simp, by intro a ha b hb; rw [List.mem_singleton] at hb; subst hb; exact hall a ha⟩
      · intro x hx
        show x ≠ none
        rw [take_set_last _ _ _ hfullp] at hx
        rcases List.mem_append.mp hx with hx2 | hx2
        · exact hinit x hx2
        · rw [List.mem_singleton] at hx2
          subst hx2
          simp
    · rw [if_neg hfull] at hw
      exact absurd hw (by simp)
  case _ i hfw =>
    rw [hfw] at hchar
    obtain ⟨hi, hgtv, hlts⟩ := hchar
    rw [hlen0] at hi
    by_cases hcond : i < n.num ∧ n.num < n.keys.length ∧ n.num < n.ptrs.length
    · rw [if_pos hcond] at hw
      cases hw
      obtain ⟨hin, hfk, hfp⟩ := hcond
      have hkeysEq := copyUp_set_take n.keys kf i n.num (by omega) hfk
      have hptrsEq := copyUp_set_take n.ptrs (some p) i n.num (by omega) hfp
      have hilt2 : i < (n.keys.take n.num).length := by omega
      have hgt : kf < (n.keys.take n.num).get ⟨i, hilt2⟩ := by
        have : (n.keys.take n.num).getD i 0 = (n.keys.take n.num).get ⟨i, hilt2⟩ :=
          List.getD_eq_getElem _ _ hilt2
        rwa [this] at hgtv
      rw [List.get_eq_getElem] at hgt
      have hdropall : ∀ y ∈ (n.keys.take n.num).drop i, kf < y := by
        intro y hy
        rw [List.mem_iff_getElem] at hy
        obtain ⟨j, hj, rfl⟩ := hy
        rw [List.getElem_drop]
        rcases Nat.eq_zero_or_pos j with h0 | hposj
        · subst h0
          simpa using hgt
        · refine lt_trans hgt ?_
          have hp2 := List.pairwise_iff_getElem.mp hsort i (i + j) (by omega)
            (by simp at hj ⊢; omega) (by omega)
          exact hp2
      refine ⟨by simp [copyUp_length n.keys i n.num (by omega) hfk, hkl],
              by simp [copyUp_length n.ptrs i n.num (by omega) hfp, hpl],
              show n.num + 1 ≤ cap by omega, ?_, ?_⟩
      · show (((copyUp n.keys i n.num).set i kf).take (n.num + 1)).Pairwise (fun a b => a < b)
        rw [hkeysEq, List.pairwise_append]
        refine ⟨hsort.sublist (List.take_sublist i _), ?_, ?_⟩
        · rw [List.pairwise_cons]
          exact ⟨hdropall, hsort.sublist (List.drop_sublist i _)⟩
        · intro a ha b hb
          rcases List.mem_cons.mp hb with rfl | hb2
          · exact hlts a ha
          · exact lt_trans (hlts a ha) (hdropall b hb2)
      · intro x hx
        show x ≠ none
        rw [hptrsEq] at hx
        rcases List.mem_append.mp hx with hx2 | hx2
        · exact hinit x (List.mem_of_mem_take hx2)
        · rcases List.mem_cons.mp hx2 with rfl | hx3
          · simp
          · exact hinit x (List.mem_of_mem_drop hx3)
    · rw [if_neg hcond] at hw
      exact absurd hw (by simp)

theorem removeChildInner_preserves_inv (cap : Nat)
    (lookupIdx : NodeCmp α → Nat → Option Nat)
    (n n2 : NodeCmp α) (kf : Nat) (r : Option α)
    (hinv : n.inv cap)
    (hchar : ∀ i, lookupIdx n kf = some i → i < n.num)
    (hr : n.removeChildInner lookupIdx kf = some (r, n2)) : n2.inv cap := by
  obtain ⟨hkl, hpl, hnum, hsort, hinit⟩ := hinv
  unfold NodeCmp.removeChildInner at hr
  split at hr
  case _ hli =>
    cases hr
    exact ⟨hkl, hpl, hnum, hsort, hinit⟩
  case _ i hli =>
    have hin : i < n.num := hchar i hli
    rw [if_pos ⟨by omega, by omega⟩] at hr
    split at hr
    case _ hpv => exact absurd hr (by simp)
    case _ p hpv =>
      cases hr
      refine ⟨by simp [copyDown_length n.keys i n.num hin (by omega), hkl],
              by simp [copyDown_length (n.ptrs.set i none) i n.num hin (by simp; omega), hpl],
              show n.num - 1 ≤ cap by omega, ?_, ?_⟩
      · show ((copyDown n.keys i n.num).take (n.num - 1)).Pairwise (fun a b => a < b)
        rw [copyDown_take n.keys i n.num hin (by omega)]
        exact hsort.sublist (List.eraseIdx_sublist _ i)
      · intro x hx
        show x ≠ none
        rw [copyDown_set_take n.ptrs none i n.num hin (by omega)] at hx
        exact hinit x ((List.eraseIdx_sublist _ i).subset hx)

theorem lookupChildIndex4_lt (n : NodeCmp α) (kf i : Nat)
    (h : n.lookupChildIndex4 kf = some i) : i < n.num := by
  unfold NodeCmp.lookupChildIndex4 at h
  rw [lookupIdxScan_eq_firstMatch] at h
  have := (firstMatchIdx_some_char _ _ _ h).1
  simp at this
  omega

theorem lookupChildIndex16_lt (n : NodeCmp α) (kf i : Nat)
    (h : n.lookupChildIndex16 kf = some i) : i < n.num := by
  rw [lookupChildIndex16_eq_scan, lookupIdxScan_eq_firstMatch] at h
  have := (firstMatchIdx_some_char _ _ _ h).1
  simp at this
  omega

/-- C2: for every Node4 and Node16 satisfying the sorted-keys invariant
(first num_children keys initialised, strictly sorted ascending, positionally
matched to the first num_children initialised child pointers), write_child —
at any fragment, present or absent, appended, shift-inserted or overwritten —
and remove_child — at any fragment — preserve the invariant whenever they
complete normally (writing an absent fragment into a full node panics in the
source and is the none case here). -/
theorem compressed_write_remove_preserve_inv (α : Type) :
    (∀ (n n2 : NodeCmp α) (kf : Nat) (p : α),
      n.inv 4 → n.writeChild4 kf p = some n2 → n2.inv 4) ∧
    (∀ (n n2 : NodeCmp α) (kf : Nat) (p : α),
      n.inv 16 → n.writeChild16 kf p = some n2 → n2.inv 16) ∧
    (∀ (n n2 : NodeCmp α) (kf : Nat) (r : Option α),
      n.inv 4 → n.removeChild4 kf = some (r, n2) → n2.inv 4) ∧
    (∀ (n n2 : NodeCmp α) (kf : Nat) (r : Option α),
      n.inv 16 → n.removeChild16 kf = some (r, n2) → n2.inv 16) := by
  refine ⟨?_, ?_, ?_, ?_⟩
  · intro n n2 kf p hinv hw
    exact writeChildInner_preserves_inv 4 _ n n2 kf p hinv (findWritePoint4_char n kf) hw
  · intro n n2 kf p hinv hw
    exact writeChildInner_preserves_inv 16 _ n n2 kf p hinv
      (findWritePoint16_char n kf (by obtain ⟨h1, _, h3, _⟩ := hinv; omega)) hw
  · intro n n2 kf r hinv hr
    exact removeChildInner_preserves_inv 4 _ n n2 kf r hinv
      (fun i hi => lookupChildIndex4_lt n kf i hi) hr
  · intro n n2 kf r hinv hr
    exact removeChildInner_preserves_inv 16 _ n n2 kf r hinv
      (fun i hi => lookupChildIndex16_lt n kf i hi) hr

/-- Witness for C2: shift-inserting fragment 5 into the sorted Node4 with
keys 3 and 7 yields a node that still satisfies the invariant. -/
theorem compressed_write_remove_preserve_inv_witness : node4ExampleW.inv 4 :=
  (compressed_write_remove_preserve_inv Nat).1 node4Example node4ExampleW 5 9
    (by decide) (by decide)

/- ## getD plumbing -/

theorem getD_eq_default_of_le (l : List γ) (d : γ) (i : Nat) (h : l.length ≤ i) :
    l.getD i d = d := by
  rw [List.getD_eq_getElem?_getD, List.getElem?_eq_none h, Option.getD_none]

theorem getD_set_self_of_lt (l : List γ) (d v : γ) (i : Nat) (h : i < l.length) :
    (l.set i v).getD i d = v := by
  rw [List.getD_eq_getElem _ _ (by simpa using h)]
  exact List.getElem_set_self _

theorem getD_set_ne (l : List γ) (d v : γ) (i j : Nat) (h : i ≠ j) :
    (l.set i v).getD j d = l.getD j d := by
  rcases Nat.lt_or_ge j l.length with hj | hj
  · rw [List.getD_eq_getElem _ _ (by simpa using hj), List.getD_eq_getElem _ _ hj]
    exact List.getElem_set_ne h _
  · rw [getD_eq_default_of_le _ _ _ (by simpa using hj), getD_eq_default_of_le _ _ _ hj]

theorem getD_map_of_lt (f : γ → γ) (l : List γ) (d : γ) (i : Nat) (h : i < l.length) :
    (l.map f).getD i d = f (l.getD i d) := by
  rw [List.getD_eq_getElem _ _ (by simpa using h), List.getD_eq_getElem _ _ h,
    List.getElem_map]

theorem set_mem (l : List γ) (i : Nat) (v x : γ) (hx : x ∈ l.set i v) :
    x = v ∨ x ∈ l := by
  rw [List.mem_iff_getElem] at hx
  obtain ⟨j, hj, hxe⟩ := hx
  rw [List.getElem_set] at hxe
  split at hxe
  · exact Or.inl hxe.symm
  · right
    rw [List.mem_iff_getElem]
    exact ⟨j, by simpa using hj, hxe⟩

/- ## Invariant preservation for Node48 -/

theorem node48_writeChild_preserves_inv (n n2 : Node48 α) (kf : Nat) (p : α)
    (hinv : n.inv) (hkf : kf < 256) (hw : n.writeChild kf p = some n2) : n2.inv := by
  obtain ⟨hTl, hPl, hnum, hle, hbnd, hinj, hinit⟩ := hinv
  unfold Node48.writeChild at hw
  by_cases habs : n.childIndices.getD kf 48 = 48
  · rw [if_pos habs] at hw
    by_cases hfull : n.num < n.childPointers.length
    · rw [if_pos hfull] at hw
      cases hw
      dsimp only [Node48.inv]
      refine ⟨by simp [hTl], by simp [hPl], show n.num + 1 ≤ 48 by omega, ?_, ?_, ?_, ?_⟩
      · intro e he
        rcases set_mem _ _ _ _ he with rfl | he2
        · omega
        · exact hle e he2
      · intro b hb hne
        by_cases hbkf : b = kf
        · subst hbkf
          rw [getD_set_self_of_lt _ _ _ _ (by omega)] at hne ⊢
          omega
        · rw [getD_set_ne _ _ _ _ _ (fun h => hbkf h.symm)] at hne ⊢
          exact lt_trans (hbnd b hb hne) (by omega)
      · intro b1 hb1 b2 hb2 hne h1 h2
        by_cases hb1kf : b1 = kf
        · subst hb1kf
          rw [getD_set_self_of_lt _ _ _ _ (by omega)]
          rw [getD_set_ne _ _ _ _ _ hne] at h2 ⊢
          have := hbnd b2 hb2 h2
          omega
        · rw [getD_set_ne _ _ _ _ _ (fun h => hb1kf h.symm)] at h1 ⊢
          by_cases hb2kf : b2 = kf
          · subst hb2kf
            rw [getD_set_self_of_lt _ _ _ _ (by omega)]
            have := hbnd b1 hb1 h1
            omega
          · rw [getD_set_ne _ _ _ _ _ (fun h => hb2kf h.symm)] at h2 ⊢
            exact hinj b1 hb1 b2 hb2 hne h1 h2
      · intro x hx
        show x ≠ none
        rw [take_set_last _ _ _ hfull] at hx
        rcases List.mem_append.mp hx with hx2 | hx2
        · exact hinit x hx2
        · rw [List.mem_singleton] at hx2
          subst hx2
          simp
    · rw [if_neg hfull] at hw
      exact absurd hw (by simp)
  · rw [if_neg habs] at hw
    cases hw
    dsimp only [Node48.inv]
    refine ⟨hTl, by simp [hPl], hnum, hle, hbnd, hinj, ?_⟩
    intro x hx
    rcases take_set_mem _ _ _ _ _ hx with rfl | hx2
    · simp
    · exact hinit x hx2

theorem node48_removeChild_preserves_inv (n n2 : Node48 α) (kf : Nat) (r : Option α)
    (hinv : n.inv) (hkf : kf < 256) (hw : n.removeChild kf = some (r, n2)) : n2.inv := by
  obtain ⟨hTl, hPl, hnum, hle, hbnd, hinj, hinit⟩ := hinv
  unfold Node48.removeChild at hw
  by_cases habs : n.childIndices.getD kf 48 = 48
  · rw [if_pos habs] at hw
    cases hw
    exact ⟨hTl, hPl, hnum, hle, hbnd, hinj, hinit⟩
  · rw [if_neg habs] at hw
    have hri : n.childIndices.getD kf 48 < n.num := hbnd kf hkf habs
    rw [if_pos ⟨hri, by omega⟩] at hw
    split at hw
    case _ hpv => exact absurd hw (by simp)
    case _ p hpv =>
      cases hw
      dsimp only [Node48.inv]
      set ri := n.childIndices.getD kf 48 with hridef
      refine ⟨by simp [hTl], ?_, show n.num - 1 ≤ 48 by omega, ?_, ?_, ?_, ?_⟩
      · show (copyDown (n.childPointers.set ri none) ri n.num).length = 48
        rw [copyDown_length _ _ _ hri (by simp; omega)]
        simp [hPl]
      · intro e he
        rcases set_mem _ _ _ _ he with rfl | he2
        · exact le_rfl
        · rw [List.mem_map] at he2
          obtain ⟨y, hy, rfl⟩ := he2
          have := hle y hy
          split
          · omega
          · exact this
      · intro b hb hne
        by_cases hbkf : b = kf
        · subst hbkf
          rw [getD_set_self_of_lt _ _ _ _ (by simp [hTl]; omega)] at hne
          exact absurd rfl hne
        · rw [getD_set_ne _ _ _ _ _ (fun h => hbkf h.symm)] at hne ⊢
          rw [getD_map_of_lt _ _ _ _ (by omega)] at hne ⊢
          have heq : n.childIndices.getD b 48 ≠ 48 := by
            intro h48
            rw [h48] at hne
            simp at hne
          have hbv := hbnd b hb heq
          have hner : n.childIndices.getD b 48 ≠ ri :=
            hinj b hb kf hkf hbkf heq habs
          split_ifs at hne ⊢ with hc1 <;> omega
      · intro b1 hb1 b2 hb2 hbne h1 h2
        by_cases hb1kf : b1 = kf
        · subst hb1kf
          rw [getD_set_self_of_lt _ _ _ _ (by simp [hTl]; omega)] at h1
          exact absurd rfl h1
        · by_cases hb2kf : b2 = kf
          · subst hb2kf
            rw [getD_set_self_of_lt _ _ _ _ (by simp [hTl]; omega)] at h2
            exact absurd rfl h2
          · rw [getD_set_ne _ _ _ _ _ (fun h => hb1kf h.symm)] at h1 ⊢
            rw [getD_set_ne _ _ _ _ _ (fun h => hb2kf h.symm)] at h2 ⊢
            rw [getD_map_of_lt _ _ _ _ (by omega)] at h1 ⊢
            rw [getD_map_of_lt _ _ _ _ (by omega)] at h2 ⊢
            have he1 : n.childIndices.getD b1 48 ≠ 48 := by
              intro h48
              rw [h48] at h1
              simp at h1
            have he2 : n.childIndices.getD b2 48 ≠ 48 := by
              intro h48
              rw [h48] at h2
              simp at h2
            have hv1 := hbnd b1 hb1 he1
            have hv2 := hbnd b2 hb2 he2
            have h12 := hinj b1 hb1 b2 hb2 hbne he1 he2
            have hner1 : n.childIndices.getD b1 48 ≠ ri :=
              hinj b1 hb1 kf hkf hb1kf he1 habs
            have hner2 : n.childIndices.getD b2 48 ≠ ri :=
              hinj b2 hb2 kf hkf hb2kf he2 habs
            split_ifs <;> omega
      · intro x hx
        show x ≠ none
        rw [copyDown_set_take _ _ _ _ hri (by omega)] at hx
        exact hinit x ((List.eraseIdx_sublist _ ri).subset hx)

/-- C3: for every Node48 in which every non-empty entry of the 256-entry
child index table points to a slot strictly below num_children and distinct
non-empty entries point to distinct slots (plus the sizes and initialized
slots that come with the layout), write_child — for any key fragment, when
the node is not full — and remove_child — for any key fragment, including
the compaction of the pointer array and the decrement of every index greater
than the removed slot — preserve the invariant. -/
theorem node48_write_remove_preserve_inv (α : Type) :
    (∀ (n n2 : Node48 α) (kf : Nat) (p : α),
      n.inv → kf < 256 → n.num < 48 → n.writeChild kf p = some n2 → n2.inv) ∧
    (∀ (n n2 : Node48 α) (kf : Nat) (r : Option α),
      n.inv → kf < 256 → n.removeChild kf = some (r, n2) → n2.inv) := by
  refine ⟨?_, ?_⟩
  · intro n n2 kf p hinv hkf _ hw
    exact node48_writeChild_preserves_inv n n2 kf p hinv hkf hw
  · intro n n2 kf r hinv hkf hr
    exact node48_removeChild_preserves_inv n n2 kf r hinv hkf hr

theorem node48Example_childIndices_getD (b : Nat) :
    node48Example.childIndices.getD b 48
      = if b = 9 then 1 else if b = 5 then 0 else 48 := by
  show (((List.replicate 256 48).set 5 0).set 9 1).getD b 48 = _
  by_cases h9 : b = 9
  · subst h9
    rw [getD_set_self_of_lt _ _ _ _
      (by rw [List.length_set, List.length_replicate]; omega)]
    rfl
  · rw [getD_set_ne _ _ _ _ _ (fun h => h9 h.symm), if_neg h9]
    by_cases h5 : b = 5
    · subst h5
      rw [getD_set_self_of_lt _ _ _ _ (by rw [List.length_replicate]; omega)]
      rfl
    · rw [getD_set_ne _ _ _ _ _ (fun h => h5 h.symm), if_neg h5]
      rcases Nat.lt_or_ge b 256 with hb | hb
      · rw [List.getD_eq_getElem _ _ (by rw [List.length_replicate]; omega),
          List.getElem_replicate]
      · rw [getD_eq_default_of_le _ _ _ (by rw [List.length_replicate]; omega)]

theorem node48Example_inv : node48Example.inv := by
  refine ⟨?_, ?_, by decide, ?_, ?_, ?_, ?_⟩
  · show (((List.replicate 256 48).set 5 0).set 9 1).length = 256
    rw [List.length_set, List.length_set, List.length_replicate]
  · show (((List.replicate 48 (none : Option Nat)).set 0 (some 10)).set 1 (some 20)).length = 48
    rw [List.length_set, List.length_set, List.length_replicate]
  · intro e he
    show e ≤ 48
    rcases set_mem _ _ _ _ he with rfl | he2
    · omega
    · rcases set_mem _ _ _ _ he2 with rfl | he3
      · omega
      · have := List.eq_of_mem_replicate he3
        omega
  · intro b hb hne
    rw [node48Example_childIndices_getD b] at hne ⊢
    rw [show node48Example.num = 2 from rfl]
    split_ifs at hne ⊢ <;> omega
  · intro b1 hb1 b2 hb2 hne h1 h2
    rw [node48Example_childIndices_getD b1] at h1 ⊢
    rw [node48Example_childIndices_getD b2] at h2 ⊢
    split_ifs at h1 h2 ⊢ <;> omega
  · intro x hx
    have he : node48Example.childPointers.take node48Example.num
        = [some 10, some 20] := by rfl
    rw [he] at hx
    rcases List.mem_cons.mp hx with rfl | hx2
    · simp
    · rcases List.mem_cons.mp hx2 with rfl | hx3
      · simp
      · simp at hx3

/-- Witness for C3: writing fragment 7 into a Node48 with children at
fragments 5 and 9 keeps the invariant. -/
theorem node48_write_remove_preserve_inv_witness :
    ((node48Example.writeChild 7 30).getD node48Example).inv :=
  (node48_write_remove_preserve_inv Nat).1 node48Example
    ((node48Example.writeChild 7 30).getD node48Example) 7 30
    node48Example_inv (by decide) (by decide)
    (by rfl)

/- ## Scan lemmas for the frame properties of write_child -/

theorem getD_take_of_lt (l : List γ) (d : γ) (m j : Nat) (h : j < m) :
    (l.take m).getD j d = l.getD j d := by
  rcases Nat.lt_or_ge j l.length with hj | hj
  · rw [List.getD_eq_getElem _ _ (by simp; omega), List.getD_eq_getElem _ _ hj,
      List.getElem_take]
  · rw [getD_eq_default_of_le _ _ _ (by simp; omega), getD_eq_default_of_le _ _ _ hj]

theorem getD_drop (l : List γ) (d : γ) (m j : Nat) :
    (l.drop m).getD j d = l.getD (m + j) d := by
  rcases Nat.lt_or_ge (m + j) l.length with hj | hj
  · rw [List.getD_eq_getElem _ _ (by simp; omega), List.getD_eq_getElem _ _ hj,
      List.getElem_drop]
  · rw [getD_eq_default_of_le _ _ _ (by simp; omega), getD_eq_default_of_le _ _ _ hj]

theorem lookupIdxScan_none_iff (kf : Nat) (l : List Nat) :
    lookupIdxScan kf l = none ↔ kf ∉ l := by
  induction l with
  | nil => simp [lookupIdxScan]
  | cons k ks ih =>
    rw [lookupIdxScan]
    by_cases h : kf = k
    · simp [h]
    · simp [h, ih]

theorem lookupIdxScan_of_char (kf : Nat) (l : List Nat) (i : Nat)
    (h1 : i < l.length) (h2 : l.getD i 0 = kf) (h3 : ∀ x ∈ l.take i, x ≠ kf) :
    lookupIdxScan kf l = some i := by
  induction l generalizing i with
  | nil => simp at h1
  | cons k ks ih =>
    cases i with
    | zero =>
      rw [lookupIdxScan, if_pos (by simpa using h2.symm)]
    | succ j =>
      have hk : k ≠ kf := h3 k (by rw [List.take_succ_cons]; exact List.mem_cons_self k _)
      rw [lookupIdxScan, if_neg (fun h => hk h.symm)]
      rw [ih j (by simpa using h1) (by simpa using h2)
        (fun x hx => h3 x (by rw [List.take_succ_cons]; exact List.mem_cons_of_mem _ hx))]
      rfl

theorem lookupIdxScan_append (kf : Nat) (l1 l2 : List Nat) :
    lookupIdxScan kf (l1 ++ l2) =
      match lookupIdxScan kf l1 with
      | some i => some i
      | none => (lookupIdxScan kf l2).map (· + l1.length) := by
  induction l1 with
  | nil => simp [lookupIdxScan]
  | cons k ks ih =>
    rw [List.cons_append, lookupIdxScan]
    by_cases h : kf = k
    · rw [lookupIdxScan, if_pos h, if_pos h]
    · rw [if_neg h, ih, lookupIdxScan, if_neg h]
      cases h2 : lookupIdxScan kf ks with
      | some i => simp
      | none =>
        cases h3 : lookupIdxScan kf l2 with
        | some i =>
          simp only [Option.map_some', Option.map_none', List.length_cons]
          rw [show i + ks.length + 1 = i + (ks.length + 1) by omega]
        | none => simp

/-- Under the sorted invariant, a write point that is not an existing hit can
only arise for a fragment absent from the initialized keys. -/
theorem wpchar_mem_existing (keys0 : List Nat) (kf : Nat) (wp : WritePoint)
    (hchar : WPChar keys0 kf wp) (hsort : keys0.Pairwise (fun a b => a < b))
    (hmem : kf ∈ keys0) : ∃ i, wp = .existing i := by
  cases wp with
  | existing i => exact ⟨i, rfl⟩
  | last i =>
    obtain ⟨_, hall⟩ := hchar
    have := hall kf hmem
    omega
  | shift i =>
    obtain ⟨hi, hgt, hlts⟩ := hchar
    rw [List.mem_iff_getElem] at hmem
    obtain ⟨j, hj, hje⟩ := hmem
    rw [List.getD_eq_getElem _ _ hi] at hgt
    rcases Nat.lt_or_ge j i with hji | hji
    · have : keys0[j] ≠ kf := by
        have hmt : keys0[j] ∈ keys0.take i := by
          rw [List.mem_iff_getElem]
          exact ⟨j, by simp; omega, by rw [List.getElem_take]⟩
        have := hlts _ hmt
        omega
      exact absurd hje this
    · rcases Nat.eq_or_lt_of_le hji with rfl | hji2
      · omega
      · have := List.pairwise_iff_getElem.mp hsort i j hi hj hji2
        omega


theorem lookupIdxScan_some_char (kf : Nat) (l : List Nat) (i : Nat)
    (h : lookupIdxScan kf l = some i) : i < l.length ∧ l.getD i 0 = kf := by
  rw [lookupIdxScan_eq_firstMatch] at h
  obtain ⟨h1, h2, _⟩ := firstMatchIdx_some_char _ _ _ h
  exact ⟨h1, (of_decide_eq_true h2).symm⟩

theorem writeChildInner_frame (cap : Nat) (fwp : NodeCmp α → Nat → WritePoint)
    (n : NodeCmp α) (kf : Nat) (p : α)
    (hinv : n.inv cap) (hnf : n.num < cap)
    (hchar : WPChar (n.keys.take n.num) kf (fwp n kf)) :
    ∃ n2, n.writeChildInner fwp kf p = some n2 ∧
      n2.pfx = n.pfx ∧
      n2.lookupChild4 kf = some p ∧
      (n.lookupChild4 kf ≠ none → n2.num = n.num) ∧
      (n.lookupChild4 kf = none → n2.num = n.num + 1) ∧
      ∀ b2, b2 ≠ kf → n2.lookupChild4 b2 = n.lookupChild4 b2 := by
  obtain ⟨hkl, hpl, hnum, hsort, hinit⟩ := hinv
  have hnl : n.num ≤ n.keys.length := by omega
  have hpn : n.num ≤ n.ptrs.length := by omega
  have hlen0 : (n.keys.take n.num).length = n.num := by simp; omega
  have hptrD : ∀ j, j < n.num → n.ptrs.getD j none ≠ none := by
    intro j hj
    have hjl : j < (n.ptrs.take n.num).length := by simp; omega
    rw [← getD_take_of_lt n.ptrs none n.num j hj, List.getD_eq_getElem _ _ hjl]
    exact hinit _ (List.getElem_mem _)
  cases hfw : fwp n kf with
  | existing i =>
    rw [hfw] at hchar
    obtain ⟨hi0, hval, hne⟩ := hchar
    rw [hlen0] at hi0
    have hil : i < n.keys.length := by omega
    have hscan : lookupIdxScan kf (n.keys.take n.num) = some i :=
      lookupIdxScan_of_char kf _ i (by omega) hval hne
    have hkeq : n.keys.set i kf = n.keys := by
      apply set_self_of_getElem _ _ _ hil
      have hilt3 : i < (n.keys.take n.num).length := by omega
      have heg : (n.keys.take n.num).getD i 0 = (n.keys.take n.num).get ⟨i, hilt3⟩ :=
        List.getD_eq_getElem _ _ hilt3
      rw [heg, List.get_eq_getElem, List.getElem_take] at hval
      exact hval
    refine ⟨{ n with keys := n.keys.set i kf, ptrs := n.ptrs.set i (some p) },
      ?_, rfl, ?_, ?_, ?_, ?_⟩
    · simp only [NodeCmp.writeChildInner, hfw]
      rw [if_pos hil]
    · show (lookupIdxScan kf ((n.keys.set i kf).take n.num)).bind
        (fun j => (n.ptrs.set i (some p)).getD j none) = some p
      rw [hkeq, hscan]
      show (n.ptrs.set i (some p)).getD i none = some p
      exact getD_set_self_of_lt _ _ _ _ (by omega)
    · intro _
      rfl
    · intro habs
      exfalso
      apply hptrD i (by omega)
      have hlk : n.lookupChild4 kf = n.ptrs.getD i none := by
        show (lookupIdxScan kf _).bind _ = _
        rw [hscan]
        rfl
      rw [← hlk, habs]
    · intro b2 hb2
      show (lookupIdxScan b2 ((n.keys.set i kf).take n.num)).bind
          (fun j => (n.ptrs.set i (some p)).getD j none)
        = (lookupIdxScan b2 (n.keys.take n.num)).bind (fun j => n.ptrs.getD j none)
      rw [hkeq]
      cases hs2 : lookupIdxScan b2 (n.keys.take n.num) with
      | none => rfl
      | some j =>
        show (n.ptrs.set i (some p)).getD j none = n.ptrs.getD j none
        obtain ⟨hjl, hjv⟩ := lookupIdxScan_some_char _ _ _ hs2
        have hji : i ≠ j := by
          intro h
          subst h
          rw [hval] at hjv
          exact hb2 hjv.symm
        exact getD_set_ne _ _ _ _ _ hji
  | last i =>
    rw [hfw] at hchar
    obtain ⟨hieq, hall⟩ := hchar
    rw [hlen0] at hieq
    subst hieq
    have hil : n.num < n.keys.length := by omega
    have hipl : n.num < n.ptrs.length := by omega
    have hscan : lookupIdxScan kf (n.keys.take n.num) = none := by
      rw [lookupIdxScan_none_iff]
      intro hmem
      have := hall kf hmem
      omega
    refine ⟨{ n with
        num := (n.num + 1),
        keys := (n.keys.set n.num kf),
        ptrs := (n.ptrs.set n.num (some p)) }, ?_, rfl, ?_, ?_, ?_, ?_⟩
    · simp only [NodeCmp.writeChildInner, hfw]
      rw [if_pos hil]
    · show (lookupIdxScan kf ((n.keys.set n.num kf).take (n.num + 1))).bind
        (fun j => (n.ptrs.set n.num (some p)).getD j none) = some p
      rw [take_set_last _ _ _ hil, lookupIdxScan_append, hscan]
      show ((lookupIdxScan kf [kf]).map (· + (n.keys.take n.num).length)).bind
        (fun j => (n.ptrs.set n.num (some p)).getD j none) = some p
      rw [show lookupIdxScan kf [kf] = some 0 by simp [lookupIdxScan]]
      show (n.ptrs.set n.num (some p)).getD (0 + (n.keys.take n.num).length) none = some p
      rw [Nat.zero_add, hlen0]
      exact getD_set_self_of_lt _ _ _ _ (by omega)
    · intro hpres
      exfalso
      apply hpres
      show (lookupIdxScan kf _).bind _ = none
      rw [hscan]
      rfl
    · intro _
      rfl
    · intro b2 hb2
      show (lookupIdxScan b2 ((n.keys.set n.num kf).take (n.num + 1))).bind
          (fun j => (n.ptrs.set n.num (some p)).getD j none)
        = (lookupIdxScan b2 (n.keys.take n.num)).bind (fun j => n.ptrs.getD j none)
      rw [take_set_last _ _ _ hil, lookupIdxScan_append]
      cases hs2 : lookupIdxScan b2 (n.keys.take n.num) with
      | some j =>
        obtain ⟨hjl, _⟩ := lookupIdxScan_some_char _ _ _ hs2
        rw [hlen0] at hjl
        show (n.ptrs.set n.num (some p)).getD j none = n.ptrs.getD j none
        exact getD_set_ne _ _ _ _ _ (by omega)
      | none =>
        show ((lookupIdxScan b2 [kf]).map (· + (n.keys.take n.num).length)).bind
          (fun j => (n.ptrs.set n.num (some p)).getD j none) = none
        rw [show lookupIdxScan b2 [kf] = none by simp [lookupIdxScan, hb2]]
        rfl
  | shift i =>
    have hnotmem : kf ∉ n.keys.take n.num := by
      intro hmem
      obtain ⟨j, hj⟩ := wpchar_mem_existing _ _ _ hchar hsort hmem
      rw [hfw] at hj
      exact WritePoint.noConfusion hj
    have hscan : lookupIdxScan kf (n.keys.take n.num) = none :=
      (lookupIdxScan_none_iff _ _).mpr hnotmem
    rw [hfw] at hchar
    obtain ⟨hi0, hgtv, hlts⟩ := hchar
    rw [hlen0] at hi0
    have hkeysEq := copyUp_set_take n.keys kf i n.num (by omega) (by omega)
    have hptrsEq := copyUp_set_take n.ptrs (some p) i n.num (by omega) (by omega)
    have hA_len : ((n.keys.take n.num).take i).length = i := by simp; omega
    have hPA_len : ((n.ptrs.take n.num).take i).length = i := by simp; omega
    have hB_len : ((n.keys.take n.num).drop i).length = n.num - i := by simp; omega
    refine ⟨{ n with
        num := (n.num + 1),
        keys := ((copyUp n.keys i n.num).set i kf),
        ptrs := ((copyUp n.ptrs i n.num).set i (some p)) }, ?_, rfl, ?_, ?_, ?_, ?_⟩
    · simp only [NodeCmp.writeChildInner, hfw]
      rw [if_pos (show i < n.num ∧ n.num < n.keys.length ∧ n.num < n.ptrs.length from
        ⟨by omega, by omega, by omega⟩)]
    · show (lookupIdxScan kf (((copyUp n.keys i n.num).set i kf).take (n.num + 1))).bind
        (fun j => ((copyUp n.ptrs i n.num).set i (some p)).getD j none) = some p
      rw [hkeysEq, lookupIdxScan_append]
      rw [show lookupIdxScan kf ((n.keys.take n.num).take i) = none by
        rw [lookupIdxScan_none_iff]
        intro hmem
        exact hnotmem (List.mem_of_mem_take hmem)]
      show ((lookupIdxScan kf (kf :: (n.keys.take n.num).drop i)).map
          (· + ((n.keys.take n.num).take i).length)).bind
        (fun j => ((copyUp n.ptrs i n.num).set i (some p)).getD j none) = some p
      rw [show lookupIdxScan kf (kf :: (n.keys.take n.num).drop i) = some 0 by
        rw [lookupIdxScan, if_pos rfl]]
      show ((copyUp n.ptrs i n.num).set i (some p)).getD
        (0 + ((n.keys.take n.num).take i).length) none = some p
      rw [Nat.zero_add, hA_len]
      exact getD_set_self_of_lt _ _ _ _
        (by rw [copyUp_length _ _ _ (by omega) (by omega)]; omega)
    · intro hpres
      exfalso
      apply hpres
      show (lookupIdxScan kf _).bind _ = none
      rw [hscan]
      rfl
    · intro _
      rfl
    · intro b2 hb2
      show (lookupIdxScan b2 (((copyUp n.keys i n.num).set i kf).take (n.num + 1))).bind
          (fun j => ((copyUp n.ptrs i n.num).set i (some p)).getD j none)
        = (lookupIdxScan b2 (n.keys.take n.num)).bind (fun j => n.ptrs.getD j none)
      rw [hkeysEq]
      conv_rhs => rw [show n.keys.take n.num
        = (n.keys.take n.num).take i ++ (n.keys.take n.num).drop i from
          (List.take_append_drop i _).symm]
      rw [lookupIdxScan_append, lookupIdxScan_append]
      cases hs2 : lookupIdxScan b2 ((n.keys.take n.num).take i) with
      | some j =>
        obtain ⟨hjl, _⟩ := lookupIdxScan_some_char _ _ _ hs2
        rw [hA_len] at hjl
        show ((copyUp n.ptrs i n.num).set i (some p)).getD j none = n.ptrs.getD j none
        rw [← getD_take_of_lt ((copyUp n.ptrs i n.num).set i (some p)) none (n.num + 1) j
          (by omega), hptrsEq]
        rw [List.getD_append _ _ _ _ (by rw [hPA_len]; omega)]
        rw [getD_take_of_lt _ _ i j (by omega), getD_take_of_lt _ _ n.num j (by omega)]
      | none =>
        rw [show lookupIdxScan b2 (kf :: (n.keys.take n.num).drop i)
            = (lookupIdxScan b2 ((n.keys.take n.num).drop i)).map (· + 1) by
          rw [lookupIdxScan, if_neg hb2]]
        cases hs3 : lookupIdxScan b2 ((n.keys.take n.num).drop i) with
        | none => rfl
        | some j =>
          obtain ⟨hjB, _⟩ := lookupIdxScan_some_char _ _ _ hs3
          rw [hB_len] at hjB
          show ((copyUp n.ptrs i n.num).set i (some p)).getD
              (j + 1 + ((n.keys.take n.num).take i).length) none
            = n.ptrs.getD (j + ((n.keys.take n.num).take i).length) none
          rw [hA_len]
          rw [← getD_take_of_lt ((copyUp n.ptrs i n.num).set i (some p)) none (n.num + 1)
            (j + 1 + i) (by omega), hptrsEq]
          rw [List.getD_append_right _ _ _ _ (by rw [hPA_len]; omega)]
          rw [show j + 1 + i - ((n.ptrs.take n.num).take i).length = j + 1 by
            rw [hPA_len]; omega]
          rw [List.getD_cons_succ, getD_drop, getD_take_of_lt _ _ n.num (i + j) (by omega)]
          rw [show i + j = j + i from by omega]


theorem lookupChild16_eq_lookupChild4 (n : NodeCmp α) (b : Nat) :
    n.lookupChild16 b = n.lookupChild4 b := by
  unfold NodeCmp.lookupChild16 NodeCmp.lookupChild4 NodeCmp.lookupChildInner
  rw [lookupChildIndex16_eq_scan]
  rfl

theorem node48_writeChild_frame (n : Node48 α) (kf : Nat) (p : α)
    (hinv : n.inv) (hkf : kf < 256) (hnf : n.num < 48) :
    ∃ n2, n.writeChild kf p = some n2 ∧
      n2.pfx = n.pfx ∧
      n2.lookupChild kf = some p ∧
      (n.lookupChild kf ≠ none → n2.num = n.num) ∧
      (n.lookupChild kf = none → n2.num = n.num + 1) ∧
      ∀ b2 < 256, b2 ≠ kf → n2.lookupChild b2 = n.lookupChild b2 := by
  obtain ⟨hTl, hPl, hnum, hle, hbnd, hinj, hinit⟩ := hinv
  have hptrD : ∀ j, j < n.num → (n.childPointers.take n.num).getD j none ≠ none := by
    intro j hj
    have hjl : j < (n.childPointers.take n.num).length := by simp; omega
    rw [List.getD_eq_getElem _ _ hjl]
    exact hinit _ (List.getElem_mem _)
  by_cases habs : n.childIndices.getD kf 48 = 48
  · have hlknone : n.lookupChild kf = none := by
      unfold Node48.lookupChild
      rw [habs]
      simp
    refine ⟨{ n with
        num := (n.num + 1),
        childIndices := (n.childIndices.set kf n.num),
        childPointers := (n.childPointers.set n.num (some p)) }, ?_, rfl, ?_, ?_, ?_, ?_⟩
    · unfold Node48.writeChild
      rw [if_pos habs, if_pos (by omega)]
    · show (if (n.childIndices.set kf n.num).getD kf 48 ≠ 48
        then ((n.childPointers.set n.num (some p)).take (n.num + 1)).getD
          ((n.childIndices.set kf n.num).getD kf 48) none
        else none) = some p
      rw [getD_set_self_of_lt _ _ _ _ (by omega)]
      rw [if_pos (by omega)]
      rw [take_set_last _ _ _ (by omega)]
      rw [List.getD_append_right _ _ _ _ (by simp)]
      have hz : n.num - (n.childPointers.take n.num).length = 0 := by
        rw [List.length_take]
        omega
      rw [hz]
      rfl
    · intro hpres
      exact absurd hlknone hpres
    · intro _
      rfl
    · intro b2 hb2 hbk
      show (if (n.childIndices.set kf n.num).getD b2 48 ≠ 48
        then ((n.childPointers.set n.num (some p)).take (n.num + 1)).getD
          ((n.childIndices.set kf n.num).getD b2 48) none
        else none) = n.lookupChild b2
      rw [getD_set_ne _ _ _ _ _ (fun h => hbk h.symm)]
      unfold Node48.lookupChild
      by_cases h48 : n.childIndices.getD b2 48 = 48
      · rw [h48]
        simp
      · rw [if_pos h48, if_pos h48]
        have hs2 : n.childIndices.getD b2 48 < n.num := hbnd b2 hb2 h48
        rw [take_set_last _ _ _ (by omega)]
        rw [List.getD_append _ _ _ _ (by rw [List.length_take]; omega)]
  · have hri : n.childIndices.getD kf 48 < n.num := hbnd kf hkf habs
    have hlksome : n.lookupChild kf
        = (n.childPointers.take n.num).getD (n.childIndices.getD kf 48) none := by
      unfold Node48.lookupChild
      rw [if_pos habs]
    refine ⟨{ n with
        childPointers :=
          (n.childPointers.set (n.childIndices.getD kf 48) (some p)) }, ?_, rfl, ?_, ?_, ?_, ?_⟩
    · unfold Node48.writeChild
      rw [if_neg habs]
    · show (if n.childIndices.getD kf 48 ≠ 48
        then ((n.childPointers.set (n.childIndices.getD kf 48) (some p)).take n.num).getD
          (n.childIndices.getD kf 48) none
        else none) = some p
      rw [if_pos habs]
      rw [getD_take_of_lt _ _ n.num _ hri]
      exact getD_set_self_of_lt _ _ _ _ (by omega)
    · intro _
      rfl
    · intro hnone
      exfalso
      apply hptrD _ hri
      rw [← hlksome, hnone]
    · intro b2 hb2 hbk
      show (if n.childIndices.getD b2 48 ≠ 48
        then ((n.childPointers.set (n.childIndices.getD kf 48) (some p)).take n.num).getD
          (n.childIndices.getD b2 48) none
        else none) = n.lookupChild b2
      unfold Node48.lookupChild
      by_cases h48 : n.childIndices.getD b2 48 = 48
      · rw [h48]
        simp
      · rw [if_pos h48, if_pos h48]
        have hs2 : n.childIndices.getD b2 48 < n.num := hbnd b2 hb2 h48
        have hne2 : n.childIndices.getD kf 48 ≠ n.childIndices.getD b2 48 :=
          hinj kf hkf b2 hb2 (fun h => hbk h.symm) habs h48
        rw [getD_take_of_lt _ _ n.num _ hs2, getD_take_of_lt _ _ n.num _ hs2]
        exact getD_set_ne _ _ _ _ _ hne2

theorem node256_writeChild_frame (n : Node256 α) (kf : Nat) (p : α)
    (hinv : n.inv) (hkf : kf < 256) :
    (n.writeChild kf p).pfx = n.pfx ∧
    (n.writeChild kf p).lookupChild kf = some p ∧
    (n.lookupChild kf ≠ none → (n.writeChild kf p).num = n.num) ∧
    (n.lookupChild kf = none → (n.writeChild kf p).num = n.num + 1) ∧
    ∀ b2, b2 ≠ kf → (n.writeChild kf p).lookupChild b2 = n.lookupChild b2 := by
  obtain ⟨hPl, hnum⟩ := hinv
  refine ⟨rfl, ?_, ?_, ?_, ?_⟩
  · show (n.childPointers.set kf (some p)).getD kf none = some p
    exact getD_set_self_of_lt _ _ _ _ (by omega)
  · intro hpres
    show (if (n.childPointers.getD kf none).isNone then n.num + 1 else n.num) = n.num
    rw [if_neg (by
      intro h
      apply hpres
      show n.childPointers.getD kf none = none
      exact Option.isNone_iff_eq_none.mp h)]
  · intro habsn
    show (if (n.childPointers.getD kf none).isNone then n.num + 1 else n.num) = n.num + 1
    rw [if_pos (Option.isNone_iff_eq_none.mpr
      (show n.childPointers.getD kf none = none from habsn))]
  · intro b2 hb2
    show (n.childPointers.set kf (some p)).getD b2 none = n.childPointers.getD b2 none
    exact getD_set_ne _ _ _ _ _ (fun h => hb2 h.symm)

/-- C10: for every non-full inner node of any class, write_child with a
fragment already present replaces that child pointer and leaves num_children
unchanged; with an absent fragment it adds the pointer and increments
num_children by exactly one; lookups of every other byte and the header
prefix are unchanged. -/
theorem write_child_frame_effects (α : Type) :
    (∀ (n : NodeCmp α) (kf : Nat) (p : α), n.inv 4 → n.num < 4 →
      ∃ n2, n.writeChild4 kf p = some n2 ∧ n2.pfx = n.pfx ∧
        n2.lookupChild4 kf = some p ∧
        (n.lookupChild4 kf ≠ none → n2.num = n.num) ∧
        (n.lookupChild4 kf = none → n2.num = n.num + 1) ∧
        ∀ b2, b2 ≠ kf → n2.lookupChild4 b2 = n.lookupChild4 b2) ∧
    (∀ (n : NodeCmp α) (kf : Nat) (p : α), n.inv 16 → n.num < 16 →
      ∃ n2, n.writeChild16 kf p = some n2 ∧ n2.pfx = n.pfx ∧
        n2.lookupChild16 kf = some p ∧
        (n.lookupChild16 kf ≠ none → n2.num = n.num) ∧
        (n.lookupChild16 kf = none → n2.num = n.num + 1) ∧
        ∀ b2, b2 ≠ kf → n2.lookupChild16 b2 = n.lookupChild16 b2) ∧
    (∀ (n : Node48 α) (kf : Nat) (p : α), n.inv → kf < 256 → n.num < 48 →
      ∃ n2, n.writeChild kf p = some n2 ∧ n2.pfx = n.pfx ∧
        n2.lookupChild kf = some p ∧
        (n.lookupChild kf ≠ none → n2.num = n.num) ∧
        (n.lookupChild kf = none → n2.num = n.num + 1) ∧
        ∀ b2 < 256, b2 ≠ kf → n2.lookupChild b2 = n.lookupChild b2) ∧
    (∀ (n : Node256 α) (kf : Nat) (p : α), n.inv → kf < 256 →
      (n.writeChild kf p).pfx = n.pfx ∧
      (n.writeChild kf p).lookupChild kf = some p ∧
      (n.lookupChild kf ≠ none → (n.writeChild kf p).num = n.num) ∧
      (n.lookupChild kf = none → (n.writeChild kf p).num = n.num + 1) ∧
      ∀ b2, b2 ≠ kf → (n.writeChild kf p).lookupChild b2 = n.lookupChild b2) := by
  refine ⟨?_, ?_, ?_, ?_⟩
  · intro n kf p hinv hnf
    exact writeChildInner_frame 4 _ n kf p hinv hnf (findWritePoint4_char n kf)
  · intro n kf p hinv hnf
    obtain ⟨n2, h1, h2, h3, h4, h5, h6⟩ :=
      writeChildInner_frame 16 _ n kf p hinv hnf
        (findWritePoint16_char n kf (by obtain ⟨ha, _, hc, _⟩ := hinv; omega))
    refine ⟨n2, h1, h2, ?_, ?_, ?_, ?_⟩
    · rw [lookupChild16_eq_lookupChild4]
      exact h3
    · rw [lookupChild16_eq_lookupChild4]
      exact h4
    · rw [lookupChild16_eq_lookupChild4]
      exact h5
    · intro b2 hb2
      rw [lookupChild16_eq_lookupChild4, lookupChild16_eq_lookupChild4]
      exact h6 b2 hb2
  · intro n kf p hinv hkf hnf
    exact node48_writeChild_frame n kf p hinv hkf hnf
  · intro n kf p hinv hkf
    exact node256_writeChild_frame n kf p hinv hkf

/-- Witness for C10: writing the absent fragment 5 into the two-child Node4
succeeds with the stated effects. -/
theorem write_child_frame_effects_witness :
    ∃ n2, node4Example.writeChild4 5 9 = some n2 ∧ n2.pfx = node4Example.pfx ∧
      n2.lookupChild4 5 = some 9 ∧
      (node4Example.lookupChild4 5 ≠ none → n2.num = node4Example.num) ∧
      (node4Example.lookupChild4 5 = none → n2.num = node4Example.num + 1) ∧
      ∀ b2, b2 ≠ 5 → n2.lookupChild4 b2 = node4Example.lookupChild4 b2 :=
  (write_child_frame_effects Nat).1 node4Example 5 9 (by decide) (by decide)

theorem getD_replicate_self (nn : Nat) (c : γ) (i : Nat) :
    (List.replicate nn c).getD i c = c := by
  rcases Nat.lt_or_ge i nn with h | h
  · rw [List.getD_eq_getElem _ _ (by rw [List.length_replicate]; exact h),
      List.getElem_replicate]
  · rw [getD_eq_default_of_le _ _ _ (by rw [List.length_replicate]; exact h)]

theorem getD_range_map (f : Nat → γ) (d : γ) (nn b : Nat) (hb : b < nn) :
    ((List.range nn).map f).getD b d = f b := by
  rw [List.getD_eq_getElem _ _ (by rw [List.length_map, List.length_range]; exact hb),
    List.getElem_map, List.getElem_range]

theorem writeIndicesFrom_getD_not_mem (t : List Nat) (i b d : Nat) (ks : List Nat)
    (h : b ∉ ks) : (writeIndicesFrom t i ks).getD b d = t.getD b d := by
  induction ks generalizing t i with
  | nil => rfl
  | cons k ks ih =>
    rw [writeIndicesFrom, ih (t.set k i) (i + 1) (fun hm => h (List.mem_cons_of_mem _ hm))]
    exact getD_set_ne _ _ _ _ _
      (fun hkb => h (by rw [← hkb]; exact List.mem_cons_self k ks))

theorem writeIndicesFrom_getD_at (b d : Nat) (l2 : List Nat) (h2 : b ∉ l2) :
    ∀ (l1 t : List Nat) (i : Nat), b ∉ l1 → b < t.length →
      (writeIndicesFrom t i (l1 ++ b :: l2)).getD b d = i + l1.length := by
  intro l1
  induction l1 with
  | nil =>
    intro t i _ hb
    rw [List.nil_append, writeIndicesFrom,
      writeIndicesFrom_getD_not_mem _ _ _ _ _ h2, getD_set_self_of_lt _ _ _ _ hb,
      List.length_nil]
    omega
  | cons k l1 ih =>
    intro t i h1 hb
    rw [List.cons_append, writeIndicesFrom,
      ih (t.set k i) (i + 1) (fun hm => h1 (List.mem_cons_of_mem _ hm))
        (by rw [List.length_set]; exact hb),
      List.length_cons]
    omega

/-- The table built by the grow_node48 loop maps a key byte occurring at
position j of a strictly sorted key list to the slot j. -/
theorem table_getD_at (ks : List Nat) (b j d : Nat) (hj : j < ks.length)
    (hpw : ks.Pairwise (fun a c => a < c)) (hb : b < 256)
    (hbe : ks.getD j 0 = b) :
    (writeIndicesFrom (List.replicate 256 48) 0 ks).getD b d = j := by
  have hje : ks[j] = b := by
    rw [List.getD_eq_getElem _ _ hj] at hbe
    exact hbe
  have hdecomp : ks = ks.take j ++ b :: ks.drop (j + 1) := by
    rw [← hje, ← List.drop_eq_getElem_cons hj, List.take_append_drop]
  have h1 : b ∉ ks.take j := by
    intro hmem
    obtain ⟨m, hml, hme⟩ := List.mem_iff_getElem.mp hmem
    rw [List.length_take] at hml
    have hlt := List.pairwise_iff_getElem.mp hpw m j (by omega) hj (by omega)
    rw [List.getElem_take] at hme
    omega
  have h2 : b ∉ ks.drop (j + 1) := by
    intro hmem
    obtain ⟨m, hml, hme⟩ := List.mem_iff_getElem.mp hmem
    rw [List.length_drop] at hml
    have hlt := List.pairwise_iff_getElem.mp hpw j (j + 1 + m) hj (by omega) (by omega)
    rw [List.getElem_drop] at hme
    omega
  rw [hdecomp, writeIndicesFrom_getD_at _ _ _ h2 _ _ _ h1
    (by rw [List.length_replicate]; exact hb), List.length_take]
  omega

theorem insertByKey_of_head (x : Nat × Option α) (l : List (Nat × Option α))
    (h : ∀ y ∈ l, x.1 < y.1) : insertByKey x l = x :: l := by
  cases l with
  | nil => rfl
  | cons y ys =>
    rw [insertByKey, if_pos (Nat.le_of_lt (h y (List.mem_cons_self _ _)))]

/-- sort_unstable_by_key leaves a list already strictly sorted by key byte
unchanged. -/
theorem sortByKey_of_sorted (l : List (Nat × Option α))
    (h : l.Pairwise (fun x y => x.1 < y.1)) : sortByKey l = l := by
  induction l with
  | nil => rfl
  | cons x xs ih =>
    rw [List.pairwise_cons] at h
    rw [sortByKey, ih h.2, insertByKey_of_head _ _ h.1]

theorem childrenPairs48_pairwise (n : Node48 α) :
    n.childrenPairs.Pairwise (fun x y => x.1 < y.1) := by
  unfold Node48.childrenPairs
  rw [List.pairwise_filterMap]
  refine List.Pairwise.imp ?_ (List.pairwise_lt_range 256)
  intro a c hac x hx y hy
  rw [Option.mem_def] at hx hy
  split at hx
  · rw [Option.some.injEq] at hx
    subst hx
    split at hy
    · rw [Option.some.injEq] at hy
      subst hy
      exact hac
    · exact absurd hy (by simp)
  · exact absurd hx (by simp)

theorem mem_childrenPairs48 (n : Node48 α) (b : Nat) (v : Option α) :
    (b, v) ∈ n.childrenPairs ↔
      b < 256 ∧ n.childIndices.getD b 48 ≠ 48 ∧
        v = (n.childPointers.take n.num).getD (n.childIndices.getD b 48) none := by
  unfold Node48.childrenPairs
  rw [List.mem_filterMap]
  constructor
  · rintro ⟨a, ha, hfa⟩
    rw [List.mem_range] at ha
    by_cases hc : n.childIndices.getD a 48 = 48
    · rw [if_neg (fun hne => hne hc)] at hfa
      exact absurd hfa (by simp)
    · rw [if_pos hc, Option.some.injEq, Prod.mk.injEq] at hfa
      obtain ⟨hab, hv⟩ := hfa
      subst hab
      exact ⟨ha, hc, hv.symm⟩
  · rintro ⟨hb, hc, rfl⟩
    exact ⟨b, List.mem_range.mpr hb, by rw [if_pos hc]⟩

theorem childrenPairs256_pairwise (n : Node256 α) :
    n.childrenPairs.Pairwise (fun x y => x.1 < y.1) := by
  unfold Node256.childrenPairs
  rw [List.pairwise_filterMap]
  refine List.Pairwise.imp ?_ (List.pairwise_lt_range 256)
  intro a c hac x hx y hy
  rw [Option.mem_def, Option.map_eq_some'] at hx hy
  obtain ⟨p, _, hpe⟩ := hx
  obtain ⟨q, _, hqe⟩ := hy
  subst hpe
  subst hqe
  exact hac

theorem mem_childrenPairs256 (n : Node256 α) (b : Nat) (v : Option α) :
    (b, v) ∈ n.childrenPairs ↔
      b < 256 ∧ ∃ p, n.childPointers.getD b none = some p ∧ v = some p := by
  unfold Node256.childrenPairs
  rw [List.mem_filterMap]
  constructor
  · rintro ⟨a, ha, hfa⟩
    rw [List.mem_range] at ha
    rw [Option.map_eq_some'] at hfa
    obtain ⟨p, hp, hpe⟩ := hfa
    rw [Prod.mk.injEq] at hpe
    obtain ⟨hab, hv⟩ := hpe
    subst hab
    exact ⟨ha, p, hp, hv.symm⟩
  · rintro ⟨hb, p, hp, rfl⟩
    refine ⟨b, List.mem_range.mpr hb, ?_⟩
    rw [hp]
    rfl

/-- In a pair list strictly sorted by key byte, a member pair sits at a
position whose key projection matches, whose value projection matches, and
before which every key byte is strictly smaller. -/
theorem sorted_pairs_pos (l : List (Nat × Option α)) (b : Nat) (v : Option α)
    (hpw : l.Pairwise (fun x y => x.1 < y.1)) (hm : (b, v) ∈ l) :
    ∃ j, ∃ hj : j < l.length,
      (l.map Prod.fst).getD j 0 = b ∧ (l.map Prod.snd).getD j none = v ∧
      ∀ x ∈ (l.map Prod.fst).take j, x < b := by
  obtain ⟨j, hj, hje⟩ := List.mem_iff_getElem.mp hm
  refine ⟨j, hj, ?_, ?_, ?_⟩
  · rw [List.getD_eq_getElem _ _ (by rw [List.length_map]; exact hj), List.getElem_map, hje]
  · rw [List.getD_eq_getElem _ _ (by rw [List.length_map]; exact hj), List.getElem_map, hje]
  · intro x hx
    rw [← List.map_take] at hx
    obtain ⟨y, hy, hyx⟩ := List.mem_map.mp hx
    obtain ⟨m, hml, hme⟩ := List.mem_iff_getElem.mp hy
    rw [List.length_take] at hml
    have hlt := List.pairwise_iff_getElem.mp hpw m j (by omega) hj (by omega)
    rw [List.getElem_take] at hme
    have hf3 : (l[m]).1 = y.1 := congrArg Prod.fst hme
    have hf4 : (l[j]).1 = b := congrArg Prod.fst hje
    omega

/-- change_block_size preserves the header and every lookup: the copied
initialized prefix is scanned identically in the old and the new block. -/
theorem changeBlockSize_agree (newSize : Nat) (n n2 : NodeCmp α)
    (hw : n.changeBlockSize newSize = some n2) :
    n2.pfx = n.pfx ∧ n2.num = n.num ∧ ∀ b, n2.lookupChild4 b = n.lookupChild4 b := by
  unfold NodeCmp.changeBlockSize at hw
  by_cases hg : n.num ≤ newSize ∧ n.num ≤ n.keys.length ∧ n.num ≤ n.ptrs.length
  · rw [if_pos hg, Option.some.injEq] at hw
    obtain ⟨hg1, hg2, hg3⟩ := hg
    have hpfx : n2.pfx = n.pfx := by rw [← hw]
    have hnum : n2.num = n.num := by rw [← hw]
    have hkeys : n2.keys = n.keys.take n.num ++ List.replicate (newSize - n.num) 0 := by
      rw [← hw]
    have hptrs : n2.ptrs
        = n.ptrs.take n.num ++ List.replicate (newSize - n.num) none := by
      rw [← hw]
    refine ⟨hpfx, hnum, ?_⟩
    intro b
    have hL : n2.lookupChild4 b
        = (lookupIdxScan b (n2.keys.take n2.num)).bind
          (fun i => n2.ptrs.getD i none) := rfl
    have hR : n.lookupChild4 b
        = (lookupIdxScan b (n.keys.take n.num)).bind (fun i => n.ptrs.getD i none) := rfl
    rw [hL, hR, hkeys, hnum, hptrs, List.take_left' (by rw [List.length_take]; omega)]
    cases hscan : lookupIdxScan b (n.keys.take n.num) with
    | none => rfl
    | some i =>
      obtain ⟨hi, _⟩ := lookupIdxScan_some_char _ _ _ hscan
      rw [List.length_take] at hi
      show (n.ptrs.take n.num ++ List.replicate (newSize - n.num) none).getD i none
        = n.ptrs.getD i none
      rw [List.getD_append _ _ _ _ (by rw [List.length_take]; omega),
        getD_take_of_lt _ _ _ _ (by omega)]
  · rw [if_neg hg] at hw
    exact absurd hw (by simp)

/-- grow_node48 preserves the header and every lookup below 256: the table
entry of a present byte names its scan position, and absent bytes keep the
EMPTY sentinel. -/
theorem growNode48_agree (n : NodeCmp α) (n2 : Node48 α)
    (hsort : (n.keys.take n.num).Pairwise (fun a c => a < c))
    (hcap : n.num ≤ 48)
    (hw : n.growNode48 = some n2) :
    n2.pfx = n.pfx ∧ n2.num = n.num ∧
      ∀ b < 256, n2.lookupChild b = n.lookupChild16 b := by
  unfold NodeCmp.growNode48 at hw
  by_cases hg : n.num = n.keys.length ∧ n.num ≤ n.ptrs.length
  · rw [if_pos hg, Option.some.injEq] at hw
    obtain ⟨hg1, hg2⟩ := hg
    have hpfx : n2.pfx = n.pfx := by rw [← hw]
    have hnum : n2.num = n.num := by rw [← hw]
    have hCI : n2.childIndices
        = writeIndicesFrom (List.replicate 256 48) 0 (n.keys.take n.num) := by
      rw [← hw]
    have hCP : n2.childPointers
        = n.ptrs.take n.num ++ List.replicate (48 - n.num) none := by
      rw [← hw]
    refine ⟨hpfx, hnum, ?_⟩
    intro b hb
    rw [lookupChild16_eq_lookupChild4]
    have hL : n2.lookupChild b
        = (if n2.childIndices.getD b 48 ≠ 48
          then (n2.childPointers.take n2.num).getD (n2.childIndices.getD b 48) none
          else none) := rfl
    have hR : n.lookupChild4 b
        = (lookupIdxScan b (n.keys.take n.num)).bind (fun i => n.ptrs.getD i none) := rfl
    rw [hL, hR, hCI, hCP, hnum, List.take_left' (by rw [List.length_take]; omega)]
    cases hscan : lookupIdxScan b (n.keys.take n.num) with
    | none =>
      rw [lookupIdxScan_none_iff] at hscan
      rw [writeIndicesFrom_getD_not_mem _ _ _ _ _ hscan, getD_replicate_self]
      simp
    | some i =>
      obtain ⟨hi, hie⟩ := lookupIdxScan_some_char _ _ _ hscan
      rw [table_getD_at _ _ _ 48 hi hsort hb hie]
      have hilt : i < n.num := by
        rw [List.length_take] at hi
        omega
      rw [if_pos (show i ≠ 48 by omega), getD_take_of_lt _ _ _ _ hilt]
      rfl
  · rw [if_neg hg] at hw
    exact absurd hw (by simp)

/-- InnerNode48::grow preserves the header and every lookup below 256: the
directly indexed Node256 slot is filled with exactly the Node48 lookup. -/
theorem node48_grow_agree (n : Node48 α) :
    (Node48.grow n).pfx = n.pfx ∧ (Node48.grow n).num = n.num ∧
      ∀ b < 256, (Node48.grow n).lookupChild b = n.lookupChild b := by
  refine ⟨rfl, rfl, ?_⟩
  intro b hb
  have hL : (Node48.grow n).lookupChild b
      = ((List.range 256).map (fun a =>
          if n.childIndices.getD a 48 ≠ 48 then
            (n.childPointers.take n.num).getD (n.childIndices.getD a 48) none
          else none)).getD b none := rfl
  rw [hL, getD_range_map _ _ _ _ hb]
  rfl

/-- InnerNode48::shrink preserves the header, sorts the keys ascending, and
preserves every lookup below 256: the collected pairs are already strictly
sorted by key byte, so the sort is the identity and the scan position of a
present byte holds its pointer. -/
theorem node48_shrink_agree (n : Node48 α) (n2 : NodeCmp α)
    (hw : n.shrink = some n2) :
    n2.pfx = n.pfx ∧ n2.num = n.num ∧
      (n2.keys.take n2.num).Pairwise (fun a c => a < c) ∧
      ∀ b < 256, n2.lookupChild16 b = n.lookupChild b := by
  have hpw := childrenPairs48_pairwise n
  have hfpw : (n.childrenPairs.map Prod.fst).Pairwise (fun a c => a < c) := by
    rw [List.pairwise_map]
    exact hpw
  unfold Node48.shrink at hw
  by_cases hg : n.num ≤ 16 ∧ n.childrenPairs.length = n.num
  · rw [if_pos hg, Option.some.injEq] at hw
    obtain ⟨hg1, hg2⟩ := hg
    have hpfx : n2.pfx = n.pfx := by rw [← hw]
    have hnum : n2.num = n.num := by rw [← hw]
    have hkeys : n2.keys = (sortByKey n.childrenPairs).map Prod.fst
        ++ List.replicate (16 - n.childrenPairs.length) 0 := by
      rw [← hw]
    have hptrs : n2.ptrs = (sortByKey n.childrenPairs).map Prod.snd
        ++ List.replicate (16 - n.childrenPairs.length) none := by
      rw [← hw]
    rw [sortByKey_of_sorted _ hpw] at hkeys hptrs
    have hkt : n2.keys.take n2.num = n.childrenPairs.map Prod.fst := by
      rw [hkeys, hnum, List.take_left' (by rw [List.length_map]; omega)]
    refine ⟨hpfx, hnum, ?_, ?_⟩
    · rw [hkt]
      exact hfpw
    · intro b hb
      rw [lookupChild16_eq_lookupChild4]
      have hL : n2.lookupChild4 b
          = (lookupIdxScan b (n2.keys.take n2.num)).bind
            (fun i => n2.ptrs.getD i none) := rfl
      rw [hL, hkt]
      by_cases hc : n.childIndices.getD b 48 = 48
      · have hnm : b ∉ n.childrenPairs.map Prod.fst := by
          intro hmem
          obtain ⟨y, hmp, hfst⟩ := List.mem_map.mp hmem
          have hy : y = (b, y.2) := by
            rw [← hfst]
          rw [hy] at hmp
          obtain ⟨_, hcne, _⟩ := (mem_childrenPairs48 n b y.2).mp hmp
          exact hcne hc
        rw [(lookupIdxScan_none_iff _ _).mpr hnm]
        have hRn : n.lookupChild b = none := by
          unfold Node48.lookupChild
          rw [hc]
          simp
        rw [hRn]
        rfl
      · obtain ⟨j, hj, hjfst, hjsnd, hjlt⟩ := sorted_pairs_pos n.childrenPairs b
          ((n.childPointers.take n.num).getD (n.childIndices.getD b 48) none) hpw
          ((mem_childrenPairs48 n b _).mpr ⟨hb, hc, rfl⟩)
        rw [lookupIdxScan_of_char b _ j (by rw [List.length_map]; exact hj) hjfst
          (fun x hx => Nat.ne_of_lt (hjlt x hx))]
        have hRs : n.lookupChild b
            = (n.childPointers.take n.num).getD (n.childIndices.getD b 48) none := by
          unfold Node48.lookupChild
          rw [if_pos hc]
        rw [hRs]
        show n2.ptrs.getD j none = _
        rw [hptrs, List.getD_append _ _ _ _ (by rw [List.length_map]; exact hj), hjsnd]
  · rw [if_neg hg] at hw
    exact absurd hw (by simp)

/-- InnerNode256::shrink preserves the header and every lookup below 256:
the table entry assigned to a present byte names the pointer slot that
received its child. -/
theorem node256_shrink_agree (n : Node256 α) (n2 : Node48 α)
    (hcnt : n.childrenPairs.length = n.num)
    (hw : n.shrink = some n2) :
    n2.pfx = n.pfx ∧ n2.num = n.num ∧
      ∀ b < 256, n2.lookupChild b = n.lookupChild b := by
  have hpw := childrenPairs256_pairwise n
  have hfpw : (n.childrenPairs.map Prod.fst).Pairwise (fun a c => a < c) := by
    rw [List.pairwise_map]
    exact hpw
  unfold Node256.shrink at hw
  by_cases hg : n.num ≤ 48 ∧ n.childrenPairs.length ≤ 48
  · rw [if_pos hg, Option.some.injEq] at hw
    obtain ⟨hg1, _⟩ := hg
    have hpfx : n2.pfx = n.pfx := by rw [← hw]
    have hnum : n2.num = n.num := by rw [← hw]
    have hCI : n2.childIndices = writeIndicesFrom (List.replicate 256 48) 0
        (n.childrenPairs.map Prod.fst) := by
      rw [← hw]
    have hCP : n2.childPointers = (n.childrenPairs.map Prod.snd)
        ++ List.replicate (48 - n.childrenPairs.length) none := by
      rw [← hw]
    have hpt : n2.childPointers.take n2.num = n.childrenPairs.map Prod.snd := by
      rw [hCP, hnum, List.take_left' (by rw [List.length_map]; omega)]
    refine ⟨hpfx, hnum, ?_⟩
    intro b hb
    have hL : n2.lookupChild b
        = (if n2.childIndices.getD b 48 ≠ 48
          then (n2.childPointers.take n2.num).getD (n2.childIndices.getD b 48) none
          else none) := rfl
    have hR : n.lookupChild b = n.childPointers.getD b none := rfl
    rw [hL, hR, hCI, hpt]
    cases hcp : n.childPointers.getD b none with
    | none =>
      have hnm : b ∉ n.childrenPairs.map Prod.fst := by
        intro hmem
        obtain ⟨y, hmp, hfst⟩ := List.mem_map.mp hmem
        have hy : y = (b, y.2) := by
          rw [← hfst]
        rw [hy] at hmp
        obtain ⟨_, p, hps, _⟩ := (mem_childrenPairs256 n b y.2).mp hmp
        rw [hcp] at hps
        exact Option.noConfusion hps
      rw [writeIndicesFrom_getD_not_mem _ _ _ _ _ hnm, getD_replicate_self,
        if_neg (by decide)]
    | some p =>
      obtain ⟨j, hj, hjfst, hjsnd, hjlt⟩ := sorted_pairs_pos n.childrenPairs b (some p)
        hpw ((mem_childrenPairs256 n b (some p)).mpr ⟨hb, p, hcp, rfl⟩)
      rw [table_getD_at _ _ _ 48 (by rw [List.length_map]; exact hj) hfpw hb hjfst]
      rw [if_pos (show j ≠ 48 by omega), hjsnd]
  · rw [if_neg hg] at hw
    exact absurd hw (by simp)

/-- C4: growing Node4 to Node16 (change_block_size), Node16 to Node48
(grow_node48) and Node48 to Node256, and shrinking Node16 to Node4, Node48
to Node16 and Node256 to Node48, each produce a node of the adjacent class
whose lookup_child agrees with the original node on all 256 key bytes and
whose header prefix and num_children equal the original's; the 48-to-16
shrink additionally leaves the initialized keys sorted ascending by key
byte. -/
theorem grow_shrink_agree (α : Type) :
    (∀ (n n2 : NodeCmp α), n.inv 4 → n.changeBlockSize 16 = some n2 →
      n2.pfx = n.pfx ∧ n2.num = n.num ∧
        ∀ b < 256, n2.lookupChild16 b = n.lookupChild4 b) ∧
    (∀ (n n2 : NodeCmp α), n.inv 16 → n.num ≤ 4 → n.changeBlockSize 4 = some n2 →
      n2.pfx = n.pfx ∧ n2.num = n.num ∧
        ∀ b < 256, n2.lookupChild4 b = n.lookupChild16 b) ∧
    (∀ (n : NodeCmp α) (n2 : Node48 α), n.inv 16 → n.growNode48 = some n2 →
      n2.pfx = n.pfx ∧ n2.num = n.num ∧
        ∀ b < 256, n2.lookupChild b = n.lookupChild16 b) ∧
    (∀ (n : Node48 α), n.inv →
      (Node48.grow n).pfx = n.pfx ∧ (Node48.grow n).num = n.num ∧
        ∀ b < 256, (Node48.grow n).lookupChild b = n.lookupChild b) ∧
    (∀ (n : Node48 α) (n2 : NodeCmp α), n.inv → n.shrink = some n2 →
      n2.pfx = n.pfx ∧ n2.num = n.num ∧
        (n2.keys.take n2.num).Pairwise (fun a c => a < c) ∧
        ∀ b < 256, n2.lookupChild16 b = n.lookupChild b) ∧
    (∀ (n : Node256 α) (n2 : Node48 α), n.inv → n.childrenPairs.length = n.num →
      n.shrink = some n2 →
      n2.pfx = n.pfx ∧ n2.num = n.num ∧
        ∀ b < 256, n2.lookupChild b = n.lookupChild b) := by
  refine ⟨?_, ?_, ?_, ?_, ?_, ?_⟩
  · intro n n2 _ hw
    obtain ⟨h1, h2, h3⟩ := changeBlockSize_agree 16 n n2 hw
    exact ⟨h1, h2, fun b _ => by rw [lookupChild16_eq_lookupChild4]; exact h3 b⟩
  · intro n n2 _ _ hw
    obtain ⟨h1, h2, h3⟩ := changeBlockSize_agree 4 n n2 hw
    exact ⟨h1, h2, fun b _ => by rw [lookupChild16_eq_lookupChild4 n b]; exact h3 b⟩
  · intro n n2 hinv hw
    obtain ⟨hkl, hpl, hnl, hsort, _⟩ := hinv
    exact growNode48_agree n n2 hsort (by omega) hw
  · intro n _
    exact node48_grow_agree n
  · intro n n2 _ hw
    exact node48_shrink_agree n n2 hw
  · intro n n2 _ hcnt hw
    exact node256_shrink_agree n n2 hcnt hw

/-- Witness for C4: growing the two-child Node4 to a Node16 preserves the
header and all 256 lookups. -/
theorem grow_shrink_agree_witness :
    node4Example.inv 4 ∧ NodeCmp.changeBlockSize 16 node4Example = some node4Grown ∧
    (node4Grown.pfx = node4Example.pfx ∧ node4Grown.num = node4Example.num ∧
      ∀ b < 256, node4Grown.lookupChild16 b = node4Example.lookupChild4 b) :=
  ⟨by decide, by decide,
    (grow_shrink_agree Nat).1 node4Example node4Grown (by decide) (by decide)⟩

theorem firstMatchIdx_append (p : Nat → Bool) (l1 l2 : List Nat) :
    firstMatchIdx p (l1 ++ l2) =
      match firstMatchIdx p l1 with
      | some i => some i
      | none => (firstMatchIdx p l2).map (· + l1.length) := by
  induction l1 with
  | nil => simp [firstMatchIdx]
  | cons k ks ih =>
    rw [List.cons_append, firstMatchIdx]
    by_cases h : p k = true
    · rw [firstMatchIdx, if_pos h, if_pos h]
    · rw [if_neg h, ih, firstMatchIdx, if_neg h]
      cases h2 : firstMatchIdx p ks with
      | some i => simp
      | none =>
        cases h3 : firstMatchIdx p l2 with
        | some i =>
          simp only [Option.map_some', Option.map_none', List.length_cons]
          rw [show i + ks.length + 1 = i + (ks.length + 1) by omega]
        | none => simp

theorem firstMatchIdx_eq_none (p : Nat → Bool) (l : List Nat)
    (h : ∀ x ∈ l, p x = false) : firstMatchIdx p l = none := by
  induction l with
  | nil => rfl
  | cons k ks ih =>
    rw [firstMatchIdx, if_neg (by rw [h k (List.mem_cons_self _ _)]; simp),
      ih (fun x hx => h x (List.mem_cons_of_mem _ hx))]
    rfl

theorem firstMatchIdx_ne_none (p : Nat → Bool) (l : List Nat) (x : Nat)
    (hx : x ∈ l) (hp : p x = true) : firstMatchIdx p l ≠ none := by
  intro h
  have := firstMatchIdx_none_char p l h x hx
  rw [hp] at this
  exact Bool.noConfusion this

/-- The masked-equality bitfield of a chunk is all ones exactly when the
chunk has no non-empty entry. -/
theorem allMask_true_iff (l : List Nat) :
    ((emptyMaskBits l).all id = true) ↔
      firstMatchIdx (fun e => decide (e ≠ 48)) l = none := by
  induction l with
  | nil => simp [emptyMaskBits, firstMatchIdx]
  | cons k ks ih =>
    by_cases hk : k = 48
    · simp [emptyMaskBits, firstMatchIdx, hk, Option.map_eq_none'] at *
      exact ih
    · simp [emptyMaskBits, firstMatchIdx, hk]

/-- trailing_ones of the equality bitfield counts up to the first non-empty
entry of the chunk. -/
theorem trailingOnes_emptyMask_some (l : List Nat) (k : Nat)
    (h : firstMatchIdx (fun e => decide (e ≠ 48)) l = some k) :
    trailingOnes (emptyMaskBits l) = k := by
  induction l generalizing k with
  | nil => exact absurd h (by simp [firstMatchIdx])
  | cons a ks ih =>
    rw [firstMatchIdx] at h
    by_cases ha : a = 48
    · rw [if_neg (by rw [ha]; simp)] at h
      rw [Option.map_eq_some'] at h
      obtain ⟨j, hj, hjk⟩ := h
      unfold trailingOnes emptyMaskBits
      rw [List.map_cons, List.takeWhile_cons, if_pos (by rw [ha]; simp),
        List.length_cons]
      have := ih j hj
      unfold trailingOnes emptyMaskBits at this
      omega
    · rw [if_pos (by simpa using ha)] at h
      cases h
      unfold trailingOnes emptyMaskBits
      rw [List.map_cons, List.takeWhile_cons, if_neg (by simpa using ha)]
      rfl

theorem emptyMaskBits_reverse (l : List Nat) :
    emptyMaskBits l.reverse = (emptyMaskBits l).reverse := by
  unfold emptyMaskBits
  rw [List.map_reverse]

theorem allMask_rev_iff (l : List Nat) :
    ((emptyMaskBits l).all id = true) ↔
      firstMatchIdx (fun e => decide (e ≠ 48)) l.reverse = none := by
  rw [← List.all_reverse, ← emptyMaskBits_reverse]
  exact allMask_true_iff l.reverse

/-- The chunked SIMD minimum key computation equals the position of the
first non-empty entry in the concatenation of the four chunks. -/
theorem chunk4_min_key (c0 c1 c2 c3 : List Nat)
    (h0 : c0.length = 64) (h1 : c1.length = 64) (h2 : c2.length = 64)
    (h3 : c3.length = 64)
    (hne : firstMatchIdx (fun e => decide (e ≠ 48)) (c0 ++ (c1 ++ (c2 ++ c3))) ≠ none) :
    ∃ k, firstMatchIdx (fun e => decide (e ≠ 48)) (c0 ++ (c1 ++ (c2 ++ c3))) = some k ∧
      k < 256 ∧
      (if (emptyMaskBits c0).all id = false then
        trailingOnes (emptyMaskBits c0)
      else if (emptyMaskBits c1).all id = false then
        trailingOnes (emptyMaskBits c1) + 64
      else if (emptyMaskBits c2).all id = false then
        trailingOnes (emptyMaskBits c2) + 128
      else
        trailingOnes (emptyMaskBits c3) + 192) = k := by
  cases hm0 : firstMatchIdx (fun e => decide (e ≠ 48)) c0 with
  | some k0 =>
    obtain ⟨hk0, -, -⟩ := firstMatchIdx_some_char _ _ _ hm0
    have hb0 : (emptyMaskBits c0).all id = false := by
      cases hall : (emptyMaskBits c0).all id with
      | false => rfl
      | true =>
        rw [(allMask_true_iff c0).mp hall] at hm0
        exact Option.noConfusion hm0
    refine ⟨k0, ?_, by omega, ?_⟩
    · rw [firstMatchIdx_append, hm0]
    · rw [if_pos hb0]
      exact trailingOnes_emptyMask_some _ _ hm0
  | none =>
    have hb0 : (emptyMaskBits c0).all id = true := (allMask_true_iff c0).mpr hm0
    cases hm1 : firstMatchIdx (fun e => decide (e ≠ 48)) c1 with
    | some k1 =>
      obtain ⟨hk1, -, -⟩ := firstMatchIdx_some_char _ _ _ hm1
      have hb1 : (emptyMaskBits c1).all id = false := by
        cases hall : (emptyMaskBits c1).all id with
        | false => rfl
        | true =>
          rw [(allMask_true_iff c1).mp hall] at hm1
          exact Option.noConfusion hm1
      refine ⟨k1 + 64, ?_, by omega, ?_⟩
      · rw [firstMatchIdx_append, hm0]
        dsimp only
        rw [firstMatchIdx_append, hm1]
        dsimp only
        rw [Option.map_some', h0]
      · rw [if_neg (by rw [hb0]; simp), if_pos hb1,
          trailingOnes_emptyMask_some _ _ hm1]
    | none =>
      have hb1 : (emptyMaskBits c1).all id = true := (allMask_true_iff c1).mpr hm1
      cases hm2 : firstMatchIdx (fun e => decide (e ≠ 48)) c2 with
      | some k2 =>
        obtain ⟨hk2, -, -⟩ := firstMatchIdx_some_char _ _ _ hm2
        have hb2 : (emptyMaskBits c2).all id = false := by
          cases hall : (emptyMaskBits c2).all id with
          | false => rfl
          | true =>
            rw [(allMask_true_iff c2).mp hall] at hm2
            exact Option.noConfusion hm2
        refine ⟨k2 + 128, ?_, by omega, ?_⟩
        · rw [firstMatchIdx_append, hm0]
          dsimp only
          rw [firstMatchIdx_append, hm1]
          dsimp only
          rw [firstMatchIdx_append, hm2]
          dsimp only
          rw [Option.map_some', Option.map_some', h1, h0]
        · rw [if_neg (by rw [hb0]; simp), if_neg (by rw [hb1]; simp), if_pos hb2,
            trailingOnes_emptyMask_some _ _ hm2]
      | none =>
        have hb2 : (emptyMaskBits c2).all id = true := (allMask_true_iff c2).mpr hm2
        have hfull : firstMatchIdx (fun e => decide (e ≠ 48)) (c0 ++ (c1 ++ (c2 ++ c3)))
            = (((firstMatchIdx (fun e => decide (e ≠ 48)) c3).map
              (· + c2.length)).map (· + c1.length)).map (· + c0.length) := by
          rw [firstMatchIdx_append, hm0]
          dsimp only
          rw [firstMatchIdx_append, hm1]
          dsimp only
          rw [firstMatchIdx_append, hm2]
        cases hm3 : firstMatchIdx (fun e => decide (e ≠ 48)) c3 with
        | none =>
          exfalso
          apply hne
          rw [hfull, hm3]
          rfl
        | some k3 =>
          obtain ⟨hk3, -, -⟩ := firstMatchIdx_some_char _ _ _ hm3
          refine ⟨k3 + 192, ?_, ?_, ?_⟩
          · rw [hfull, hm3, Option.map_some', Option.map_some', Option.map_some',
              h2, h1, h0]
          · omega
          · rw [if_neg (by rw [hb0]; simp), if_neg (by rw [hb1]; simp),
              if_neg (by rw [hb2]; simp), trailingOnes_emptyMask_some _ _ hm3]

theorem leadingOnes_emptyMask_some (l : List Nat) (k : Nat)
    (h : firstMatchIdx (fun e => decide (e ≠ 48)) l.reverse = some k) :
    leadingOnes (emptyMaskBits l) = k := by
  unfold leadingOnes
  rw [← emptyMaskBits_reverse]
  exact trailingOnes_emptyMask_some _ _ h

/-- The chunked SIMD maximum key computation equals 255 minus the position
of the first non-empty entry of the reversed table. -/
theorem chunk4_max_key (c0 c1 c2 c3 : List Nat)
    (h0 : c0.length = 64) (h1 : c1.length = 64) (h2 : c2.length = 64)
    (h3 : c3.length = 64)
    (hne : firstMatchIdx (fun e => decide (e ≠ 48)) (c0 ++ (c1 ++ (c2 ++ c3))).reverse
      ≠ none) :
    ∃ k, firstMatchIdx (fun e => decide (e ≠ 48)) (c0 ++ (c1 ++ (c2 ++ c3))).reverse
        = some k ∧ k < 256 ∧
      (if (emptyMaskBits c3).all id = false then
        255 - leadingOnes (emptyMaskBits c3)
      else if (emptyMaskBits c2).all id = false then
        191 - leadingOnes (emptyMaskBits c2)
      else if (emptyMaskBits c1).all id = false then
        127 - leadingOnes (emptyMaskBits c1)
      else
        63 - leadingOnes (emptyMaskBits c0)) = 255 - k := by
  have hrev : (c0 ++ (c1 ++ (c2 ++ c3))).reverse
      = c3.reverse ++ (c2.reverse ++ (c1.reverse ++ c0.reverse)) := by
    rw [List.reverse_append, List.reverse_append, List.reverse_append,
      List.append_assoc, List.append_assoc]
  rw [hrev] at hne
  rw [hrev]
  cases hm3 : firstMatchIdx (fun e => decide (e ≠ 48)) c3.reverse with
  | some k3 =>
    obtain ⟨hk3, -, -⟩ := firstMatchIdx_some_char _ _ _ hm3
    rw [List.length_reverse] at hk3
    have hb3 : (emptyMaskBits c3).all id = false := by
      cases hall : (emptyMaskBits c3).all id with
      | false => rfl
      | true =>
        rw [(allMask_rev_iff c3).mp hall] at hm3
        exact Option.noConfusion hm3
    refine ⟨k3, ?_, by omega, ?_⟩
    · rw [firstMatchIdx_append, hm3]
    · rw [if_pos hb3, leadingOnes_emptyMask_some _ _ hm3]
  | none =>
    have hb3 : (emptyMaskBits c3).all id = true := (allMask_rev_iff c3).mpr hm3
    cases hm2 : firstMatchIdx (fun e => decide (e ≠ 48)) c2.reverse with
    | some k2 =>
      obtain ⟨hk2, -, -⟩ := firstMatchIdx_some_char _ _ _ hm2
      rw [List.length_reverse] at hk2
      have hb2 : (emptyMaskBits c2).all id = false := by
        cases hall : (emptyMaskBits c2).all id with
        | false => rfl
        | true =>
          rw [(allMask_rev_iff c2).mp hall] at hm2
          exact Option.noConfusion hm2
      refine ⟨k2 + 64, ?_, by omega, ?_⟩
      · rw [firstMatchIdx_append, hm3]
        dsimp only
        rw [firstMatchIdx_append, hm2]
        dsimp only
        rw [Option.map_some', List.length_reverse, h3]
      · rw [if_neg (by rw [hb3]; simp), if_pos hb2, leadingOnes_emptyMask_some _ _ hm2]
        omega
    | none =>
      have hb2 : (emptyMaskBits c2).all id = true := (allMask_rev_iff c2).mpr hm2
      cases hm1 : firstMatchIdx (fun e => decide (e ≠ 48)) c1.reverse with
      | some k1 =>
        obtain ⟨hk1, -, -⟩ := firstMatchIdx_some_char _ _ _ hm1
        rw [List.length_reverse] at hk1
        have hb1 : (emptyMaskBits c1).all id = false := by
          cases hall : (emptyMaskBits c1).all id with
          | false => rfl
          | true =>
            rw [(allMask_rev_iff c1).mp hall] at hm1
            exact Option.noConfusion hm1
        refine ⟨k1 + 128, ?_, by omega, ?_⟩
        · rw [firstMatchIdx_append, hm3]
          dsimp only
          rw [firstMatchIdx_append, hm2]
          dsimp only
          rw [firstMatchIdx_append, hm1]
          dsimp only
          rw [Option.map_some', Option.map_some', List.length_reverse,
            List.length_reverse, h2, h3]
        · rw [if_neg (by rw [hb3]; simp), if_neg (by rw [hb2]; simp), if_pos hb1,
            leadingOnes_emptyMask_some _ _ hm1]
          omega
      | none =>
        have hb1 : (emptyMaskBits c1).all id = true := (allMask_rev_iff c1).mpr hm1
        have hfull : firstMatchIdx (fun e => decide (e ≠ 48))
            (c3.reverse ++ (c2.reverse ++ (c1.reverse ++ c0.reverse)))
            = (((firstMatchIdx (fun e => decide (e ≠ 48)) c0.reverse).map
              (· + c1.reverse.length)).map (· + c2.reverse.length)).map
              (· + c3.reverse.length) := by
          rw [firstMatchIdx_append, hm3]
          dsimp only
          rw [firstMatchIdx_append, hm2]
          dsimp only
          rw [firstMatchIdx_append, hm1]
        cases hm0 : firstMatchIdx (fun e => decide (e ≠ 48)) c0.reverse with
        | none =>
          exfalso
          apply hne
          rw [hfull, hm0]
          rfl
        | some k0 =>
          obtain ⟨hk0, -, -⟩ := firstMatchIdx_some_char _ _ _ hm0
          rw [List.length_reverse] at hk0
          refine ⟨k0 + 192, ?_, by omega, ?_⟩
          · rw [hfull, hm0, Option.map_some', Option.map_some', Option.map_some',
              List.length_reverse, List.length_reverse, List.length_reverse,
              h1, h2, h3]
          · rw [if_neg (by rw [hb3]; simp), if_neg (by rw [hb2]; simp),
              if_neg (by rw [hb1]; simp), leadingOnes_emptyMask_some _ _ hm0]
            omega

/-- C7: for every Node48 with at least one child, the SIMD min and max
(sentinel broadcast against four 64-byte chunks with trailing-ones and
leading-ones counts on the bitmasks) return exactly the same
(key byte, child pointer) pair as the scalar variants that scan the
256-entry index table forward respectively backward to the first non-empty
entry. -/
theorem node48_simd_min_max_eq_scalar (α : Type) (n : Node48 α)
    (hinv : n.inv) (hne : ∃ b < 256, n.childIndices.getD b 48 ≠ 48) :
    n.minSimd = n.minScalar ∧ n.maxSimd = n.maxScalar := by
  obtain ⟨hTl, hPl, hnum, hle, hbnd, hinj, hinit⟩ := hinv
  obtain ⟨b, hb, hbne⟩ := hne
  have hbl : b < n.childIndices.length := by omega
  have hmem : n.childIndices[b] ∈ n.childIndices := List.getElem_mem _
  have hpx : (fun e => decide (e ≠ 48)) n.childIndices[b] = true := by
    rw [List.getD_eq_getElem _ _ hbl] at hbne
    simpa using hbne
  have hfne : firstMatchIdx (fun e => decide (e ≠ 48)) n.childIndices ≠ none :=
    firstMatchIdx_ne_none _ _ _ hmem hpx
  have hfner : firstMatchIdx (fun e => decide (e ≠ 48)) n.childIndices.reverse
      ≠ none :=
    firstMatchIdx_ne_none _ _ _ (List.mem_reverse.mpr hmem) hpx
  have hc3 : (n.childIndices.drop 192).take 64 = n.childIndices.drop 192 :=
    List.take_of_length_le (by rw [List.length_drop, hTl])
  have hd : n.childIndices = n.childIndices.take 64
      ++ ((n.childIndices.drop 64).take 64
      ++ ((n.childIndices.drop 128).take 64 ++ (n.childIndices.drop 192).take 64)) := by
    have hx1 : n.childIndices.drop 192 = (n.childIndices.drop 128).drop 64 := by
      rw [List.drop_drop]
    have hx2 : n.childIndices.drop 128 = (n.childIndices.drop 64).drop 64 := by
      rw [List.drop_drop]
    rw [hc3, hx1, List.take_append_drop, hx2, List.take_append_drop,
      List.take_append_drop]
  constructor
  · obtain ⟨k, hsc, hklt, hsimd⟩ := chunk4_min_key (n.childIndices.take 64)
      ((n.childIndices.drop 64).take 64) ((n.childIndices.drop 128).take 64)
      ((n.childIndices.drop 192).take 64)
      (by rw [List.length_take, hTl]; omega)
      (by rw [List.length_take, List.length_drop, hTl]; omega)
      (by rw [List.length_take, List.length_drop, hTl]; omega)
      (by rw [List.length_take, List.length_drop, hTl]; omega)
      (by rw [← hd]; exact hfne)
    rw [← hd] at hsc
    simp only [Node48.minSimd, Node48.minScalar]
    rw [hsc]
    dsimp only
    rw [hsimd, hTl, if_pos hklt]
  · obtain ⟨k, hsc, hklt, hsimd⟩ := chunk4_max_key (n.childIndices.take 64)
      ((n.childIndices.drop 64).take 64) ((n.childIndices.drop 128).take 64)
      ((n.childIndices.drop 192).take 64)
      (by rw [List.length_take, hTl]; omega)
      (by rw [List.length_take, List.length_drop, hTl]; omega)
      (by rw [List.length_take, List.length_drop, hTl]; omega)
      (by rw [List.length_take, List.length_drop, hTl]; omega)
      (by rw [← hd]; exact hfner)
    rw [← hd] at hsc
    simp only [Node48.maxSimd, Node48.maxScalar]
    rw [hsc]
    dsimp only
    rw [hsimd, hTl, if_pos (by omega)]

/-- Witness for C7: on the two-child Node48 both SIMD extrema agree with the
scalar scans. -/
theorem node48_simd_min_max_eq_scalar_witness :
    node48Example.minSimd = node48Example.minScalar ∧
    node48Example.maxSimd = node48Example.maxScalar :=
  node48_simd_min_max_eq_scalar Nat node48Example node48Example_inv
    ⟨5, by decide, by decide⟩

theorem searchChildren_eq (l : List (Nat × ARTree α)) (b : Nat) (key : List Nat)
    (d : Nat) :
    ARTree.searchChildren l b key d
      = match findChild l b with
        | some c => c.search key d
        | none => none := by
  induction l with
  | nil => rfl
  | cons x rest ih =>
    obtain ⟨kb, c⟩ := x
    rw [ARTree.searchChildren, findChild]
    by_cases h : kb = b
    · rw [if_pos h, if_pos h]
    · rw [if_neg h, if_neg h, ih]

theorem findChild_mem (l : List (Nat × ARTree α)) (b : Nat) (c : ARTree α)
    (h : findChild l b = some c) : (b, c) ∈ l := by
  induction l with
  | nil => exact absurd h (by simp [findChild])
  | cons x rest ih =>
    obtain ⟨kb, c2⟩ := x
    rw [findChild] at h
    by_cases hkb : kb = b
    · rw [if_pos hkb, Option.some.injEq] at h
      subst hkb
      subst h
      exact List.mem_cons_self _ _
    · rw [if_neg hkb] at h
      exact List.mem_cons_of_mem _ (ih h)

theorem findChild_of_mem (l : List (Nat × ARTree α)) (b : Nat) (c : ARTree α)
    (hnd : (l.map Prod.fst).Nodup) (h : (b, c) ∈ l) : findChild l b = some c := by
  induction l with
  | nil => simp at h
  | cons x rest ih =>
    obtain ⟨kb, c2⟩ := x
    rw [List.map_cons, List.nodup_cons] at hnd
    rw [findChild]
    rcases List.mem_cons.mp h with heq | hmem
    · rw [Prod.mk.injEq] at heq
      obtain ⟨h1, h2⟩ := heq
      subst h1
      subst h2
      rw [if_pos rfl]
    · have hne : kb ≠ b := by
        intro he
        apply hnd.1
        subst he
        exact List.mem_map.mpr ⟨(kb, c), hmem, rfl⟩
      rw [if_neg hne]
      exact ih hnd.2 hmem

theorem mem_leavesOfChildren (l : List (Nat × ARTree α)) (x : List Nat × α) :
    x ∈ ARTree.leavesOfChildren l ↔ ∃ bc ∈ l, x ∈ bc.2.leavesOf := by
  induction l with
  | nil => simp [ARTree.leavesOfChildren]
  | cons y rest ih =>
    obtain ⟨kb, c⟩ := y
    rw [ARTree.leavesOfChildren, List.mem_append, ih]
    constructor
    · rintro (h | ⟨bc, hm, hx⟩)
      · exact ⟨(kb, c), List.mem_cons_self _ _, h⟩
      · exact ⟨bc, List.mem_cons_of_mem _ hm, hx⟩
    · rintro ⟨bc, hm, hx⟩
      rcases List.mem_cons.mp hm with rfl | hm2
      · exact Or.inl hx
      · exact Or.inr ⟨bc, hm2, hx⟩

theorem sizeOf_child_lt (b : Nat) (c : ARTree α) (pfx : List Nat)
    (children : List (Nat × ARTree α)) (hmem : (b, c) ∈ children) :
    sizeOf c < sizeOf (ARTree.inner pfx children) := by
  have h1 := List.sizeOf_lt_of_mem hmem
  simp only [Prod.mk.sizeOf_spec] at h1
  simp only [ARTree.inner.sizeOf_spec]
  omega

/-- Every leaf key stored in a well-formed subtree extends the byte path to
that subtree. -/
theorem leaves_prefix : ∀ (N : Nat) (t : ARTree α), sizeOf t ≤ N →
    ∀ (p key : List Nat) (v : α), t.wf p → (key, v) ∈ t.leavesOf →
      key.take p.length = p := by
  intro N
  induction N with
  | zero =>
    intro t ht
    cases t with
    | leaf k v => simp only [ARTree.leaf.sizeOf_spec] at ht; omega
    | inner pfx children => simp only [ARTree.inner.sizeOf_spec] at ht; omega
  | succ N ih =>
    intro t ht p key v hwf hmem
    cases t with
    | leaf k v0 =>
      cases hwf with
      | leaf _ _ _ hk =>
        simp only [ARTree.leavesOf] at hmem
        rw [List.mem_singleton, Prod.mk.injEq] at hmem
        obtain ⟨rfl, rfl⟩ := hmem
        exact hk
    | inner pfx children =>
      cases hwf with
      | inner _ _ _ hsort hch =>
        simp only [ARTree.leavesOf] at hmem
        rw [mem_leavesOfChildren] at hmem
        obtain ⟨⟨b, c⟩, hbc, hx⟩ := hmem
        have hcw := hch b c hbc
        have hsz : sizeOf c ≤ N := by
          have := sizeOf_child_lt b c pfx children hbc
          omega
        have hp2 := ih c hsz (p ++ pfx ++ [b]) key v hcw hx
        have hlen : p.length ≤ (p ++ pfx ++ [b]).length := by simp
        calc key.take p.length
            = (key.take (p ++ pfx ++ [b]).length).take p.length := by
              rw [List.take_take, Nat.min_eq_left hlen]
          _ = (p ++ pfx ++ [b]).take p.length := by rw [hp2]
          _ = p := by
              rw [List.append_assoc]
              exact List.take_left' rfl

/-- The two descent facts behind a successful search: a key whose prefix up
to and including the child byte matches the path passes the node's prefix
check and yields that byte at the advanced depth. -/
theorem key_path_facts (key p pfx : List Nat) (b0 : Nat)
    (htake : key.take (p.length + pfx.length + 1) = p ++ pfx ++ [b0]) :
    (key.drop p.length).take pfx.length = pfx ∧
    key[p.length + pfx.length]? = some b0 := by
  have hklen : p.length + pfx.length + 1 ≤ key.length := by
    have h := congrArg List.length htake
    rw [List.length_take] at h
    simp only [List.length_append, List.length_cons, List.length_nil] at h
    omega
  constructor
  · have h1 : key.take (p.length + pfx.length) = p ++ pfx := by
      have h2 : (key.take (p.length + pfx.length + 1)).take (p.length + pfx.length)
          = key.take (p.length + pfx.length) := by
        rw [List.take_take, Nat.min_eq_left (by omega)]
      rw [← h2, htake, List.take_left' (by simp)]
    have h3 := List.drop_take (p.length + pfx.length) p.length key
    rw [Nat.add_sub_cancel_left] at h3
    rw [← h3, h1]
    exact List.drop_left p pfx
  · have h5 : (key.take (p.length + pfx.length + 1))[p.length + pfx.length]?
        = some b0 := by
      rw [htake, List.getElem?_append_right (by simp)]
      simp
    rw [List.getElem?_take, if_pos (by omega)] at h5
    exact h5

/-- Search soundness: a hit names a stored leaf with the queried key. -/
theorem search_sound : ∀ (N : Nat) (t : ARTree α), sizeOf t ≤ N →
    ∀ (key : List Nat) (d : Nat) (v : α), t.search key d = some v →
      (key, v) ∈ t.leavesOf := by
  intro N
  induction N with
  | zero =>
    intro t ht
    cases t with
    | leaf k v => simp only [ARTree.leaf.sizeOf_spec] at ht; omega
    | inner pfx children => simp only [ARTree.inner.sizeOf_spec] at ht; omega
  | succ N ih =>
    intro t ht key d v hs
    cases t with
    | leaf k v0 =>
      rw [ARTree.search] at hs
      by_cases hk : k = key
      · rw [if_pos hk, Option.some.injEq] at hs
        simp only [ARTree.leavesOf]
        rw [List.mem_singleton, Prod.mk.injEq]
        exact ⟨hk.symm, hs.symm⟩
      · rw [if_neg hk] at hs
        exact absurd hs (by simp)
    | inner pfx children =>
      rw [ARTree.search] at hs
      by_cases hpfx : (key.drop d).take pfx.length = pfx
      · rw [if_pos hpfx] at hs
        cases hb : key[d + pfx.length]? with
        | none =>
          rw [hb] at hs
          exact absurd hs (by simp)
        | some b =>
          rw [hb] at hs
          dsimp only at hs
          rw [searchChildren_eq] at hs
          cases hf : findChild children b with
          | none =>
            rw [hf] at hs
            exact absurd hs (by simp)
          | some c =>
            rw [hf] at hs
            dsimp only at hs
            have hbc := findChild_mem _ _ _ hf
            have hsz : sizeOf c ≤ N := by
              have := sizeOf_child_lt b c pfx children hbc
              omega
            have hmem := ih c hsz key (d + pfx.length + 1) v hs
            simp only [ARTree.leavesOf]
            rw [mem_leavesOfChildren]
            exact ⟨(b, c), hbc, hmem⟩
      · rw [if_neg hpfx] at hs
        exact absurd hs (by simp)

/-- Search completeness: every stored leaf is found from its path depth. -/
theorem search_complete : ∀ (N : Nat) (t : ARTree α), sizeOf t ≤ N →
    ∀ (p key : List Nat) (v : α), t.wf p → (key, v) ∈ t.leavesOf →
      t.search key p.length = some v := by
  intro N
  induction N with
  | zero =>
    intro t ht
    cases t with
    | leaf k v => simp only [ARTree.leaf.sizeOf_spec] at ht; omega
    | inner pfx children => simp only [ARTree.inner.sizeOf_spec] at ht; omega
  | succ N ih =>
    intro t ht p key v hwf hmem
    cases t with
    | leaf k v0 =>
      simp only [ARTree.leavesOf] at hmem
      rw [List.mem_singleton, Prod.mk.injEq] at hmem
      obtain ⟨rfl, rfl⟩ := hmem
      rw [ARTree.search, if_pos rfl]
    | inner pfx children =>
      cases hwf with
      | inner _ _ _ hsort hch =>
        simp only [ARTree.leavesOf] at hmem
        rw [mem_leavesOfChildren] at hmem
        obtain ⟨⟨b, c⟩, hbc, hx⟩ := hmem
        have hcw := hch b c hbc
        have hsz : sizeOf c ≤ N := by
          have := sizeOf_child_lt b c pfx children hbc
          omega
        have htk := leaves_prefix (sizeOf c) c (le_refl _) _ key v hcw hx
        have hlen : (p ++ pfx ++ [b]).length = p.length + pfx.length + 1 := by
          simp
          omega
        rw [hlen] at htk
        obtain ⟨hpfx, hbyte⟩ := key_path_facts key p pfx b htk
        rw [ARTree.search, if_pos hpfx, hbyte]
        dsimp only
        rw [searchChildren_eq,
          findChild_of_mem children b c (hsort.imp Nat.ne_of_lt) hbc]
        have hrec := ih c hsz (p ++ pfx ++ [b]) key v hcw hx
        rw [hlen] at hrec
        exact hrec

/-- The invariants of the concrete two-level test tree. -/
theorem exampleTree_wf : exampleTree.wf [] := by
  refine ARTree.wf.inner _ _ _ (by decide) ?_
  intro b c hbc
  simp only [exampleChildren, List.mem_cons, List.not_mem_nil, or_false] at hbc
  rcases hbc with h | h <;> rw [Prod.mk.injEq] at h <;> obtain ⟨rfl, rfl⟩ := h
  · refine ARTree.wf.inner _ _ _ (by decide) ?_
    intro b c hbc
    simp only [List.mem_cons, List.not_mem_nil, or_false] at hbc
    rcases hbc with h | h <;> rw [Prod.mk.injEq] at h <;> obtain ⟨rfl, rfl⟩ := h
    · exact ARTree.wf.leaf _ _ _ (by decide)
    · exact ARTree.wf.leaf _ _ _ (by decide)
  · refine ARTree.wf.inner _ _ _ (by decide) ?_
    intro b c hbc
    simp only [List.mem_cons, List.not_mem_nil, or_false] at hbc
    rcases hbc with h | h <;> rw [Prod.mk.injEq] at h <;> obtain ⟨rfl, rfl⟩ := h
    · exact ARTree.wf.leaf _ _ _ (by decide)
    · exact ARTree.wf.leaf _ _ _ (by decide)

/-- C1: on every trie satisfying the structural invariants, search returns a
stored value exactly when the queried byte view equals the byte view of a
stored leaf key, and reports not-found otherwise; in particular on the
two-level test tree the four stored keys are hits with their values and the
queries [1,2,3], [1,2,3,5,6], [1,2,3,50,6,1] and [10,2,3,5,6,1] are all
not-found. -/
theorem search_spec (α : Type) :
    (∀ (t : ARTree α) (p key : List Nat) (v : α), t.wf p →
      (t.search key p.length = some v ↔ (key, v) ∈ t.leavesOf)) ∧
    (exampleTree.search [1, 2, 3, 5, 6, 1] 0 = some 123561 ∧
     exampleTree.search [1, 2, 3, 5, 6, 2] 0 = some 123562 ∧
     exampleTree.search [1, 2, 4, 7, 8, 3] 0 = some 124783 ∧
     exampleTree.search [1, 2, 4, 7, 8, 4] 0 = some 124784 ∧
     exampleTree.search [1, 2, 3] 0 = none ∧
     exampleTree.search [1, 2, 3, 5, 6] 0 = none ∧
     exampleTree.search [1, 2, 3, 50, 6, 1] 0 = none ∧
     exampleTree.search [10, 2, 3, 5, 6, 1] 0 = none) := by
  constructor
  · intro t p key v hwf
    constructor
    · exact search_sound (sizeOf t) t (le_refl _) key p.length v
    · exact fun hm => search_complete (sizeOf t) t (le_refl _) p key v hwf hm
  · exact ⟨by decide, by decide, by decide, by decide, by decide, by decide,
      by decide, by decide⟩

/-- Witness for C1: the stored key [1,2,3,5,6,1] of the two-level test tree
is a hit exactly because it is a stored leaf. -/
theorem search_spec_witness :
    exampleTree.wf [] ∧
    (exampleTree.search [1, 2, 3, 5, 6, 1] (List.length ([] : List Nat)) = some 123561
      ↔ ([1, 2, 3, 5, 6, 1], 123561) ∈ exampleTree.leavesOf) :=
  ⟨exampleTree_wf,
    (search_spec Nat).1 exampleTree [] [1, 2, 3, 5, 6, 1] 123561 exampleTree_wf⟩

theorem list_sizeOf_append (l1 l2 : List (Nat × ARTree α)) :
    sizeOf (l1 ++ l2) + 1 = sizeOf l1 + sizeOf l2 := by
  induction l1 with
  | nil =>
    rw [List.nil_append]
    simp only [List.nil.sizeOf_spec]
    omega
  | cons x xs ih =>
    rw [List.cons_append]
    simp only [List.cons.sizeOf_spec]
    omega

theorem list_sizeOf_reverse (l : List (Nat × ARTree α)) :
    sizeOf l.reverse = sizeOf l := by
  induction l with
  | nil => rfl
  | cons x xs ih =>
    rw [List.reverse_cons]
    have h := list_sizeOf_append xs.reverse [x]
    simp only [List.cons.sizeOf_spec, List.nil.sizeOf_spec] at h ⊢
    omega

theorem backCursorLeaves_append (l1 l2 : List (Nat × ARTree α)) :
    backCursorLeaves (l1 ++ l2) = backCursorLeaves l1 ++ backCursorLeaves l2 := by
  simp [backCursorLeaves]

/-- Reversing the leaves below a child list is collecting, over the reversed
child list, each child's reversed leaves. -/
theorem leaves_reverse_backCursor (l : List (Nat × ARTree α)) :
    (ARTree.leavesOfChildren l).reverse = backCursorLeaves l.reverse := by
  induction l with
  | nil => rfl
  | cons x rest ih =>
    obtain ⟨b, c⟩ := x
    rw [ARTree.leavesOfChildren, List.reverse_append, ih, List.reverse_cons,
      backCursorLeaves_append]
    simp [backCursorLeaves]

/-- With enough fuel, the forward machine collects exactly the leaves its
deque still covers, in order. -/
theorem consume_stepF : ∀ (fuel : Nat) (dq : List (List (Nat × ARTree α))),
    sizeOf dq ≤ fuel → consume stepF fuel dq = dequeLeaves dq := by
  intro fuel
  induction fuel with
  | zero =>
    intro dq h
    cases dq with
    | nil => simp only [List.nil.sizeOf_spec] at h; omega
    | cons cur rest => simp only [List.cons.sizeOf_spec] at h; omega
  | succ fuel ih =>
    intro dq h
    rw [consume]
    cases dq with
    | nil => rfl
    | cons cur rest =>
      cases cur with
      | nil =>
        rw [stepF]
        dsimp only
        rw [ih rest (by simp only [List.cons.sizeOf_spec, List.nil.sizeOf_spec] at h ⊢; omega)]
        simp [dequeLeaves, ARTree.leavesOfChildren]
      | cons pair cur2 =>
        obtain ⟨b, c⟩ := pair
        cases c with
        | leaf k v =>
          rw [stepF]
          dsimp only
          rw [ih (cur2 :: rest) (by
            simp only [List.cons.sizeOf_spec, Prod.mk.sizeOf_spec,
              ARTree.leaf.sizeOf_spec] at h ⊢
            omega)]
          simp [dequeLeaves, ARTree.leavesOfChildren, ARTree.leavesOf]
        | inner pfx children =>
          rw [stepF]
          dsimp only
          rw [ih (children :: cur2 :: rest) (by
            simp only [List.cons.sizeOf_spec, Prod.mk.sizeOf_spec,
              ARTree.inner.sizeOf_spec] at h ⊢
            omega)]
          simp [dequeLeaves, ARTree.leavesOfChildren, ARTree.leavesOf,
            List.append_assoc]

/-- With enough fuel, the mirrored backward machine collects exactly the
reversed leaves its deque still covers. -/
theorem consume_stepB : ∀ (fuel : Nat) (dq : List (List (Nat × ARTree α))),
    sizeOf dq ≤ fuel → consume stepB fuel dq = dequeLeavesB dq := by
  intro fuel
  induction fuel with
  | zero =>
    intro dq h
    cases dq with
    | nil => simp only [List.nil.sizeOf_spec] at h; omega
    | cons cur rest => simp only [List.cons.sizeOf_spec] at h; omega
  | succ fuel ih =>
    intro dq h
    rw [consume]
    cases dq with
    | nil => rfl
    | cons cur rest =>
      cases cur with
      | nil =>
        rw [stepB]
        dsimp only
        rw [ih rest (by simp only [List.cons.sizeOf_spec, List.nil.sizeOf_spec] at h ⊢; omega)]
        simp [dequeLeavesB, backCursorLeaves]
      | cons pair cur2 =>
        obtain ⟨b, c⟩ := pair
        cases c with
        | leaf k v =>
          rw [stepB]
          dsimp only
          rw [ih (cur2 :: rest) (by
            simp only [List.cons.sizeOf_spec, Prod.mk.sizeOf_spec,
              ARTree.leaf.sizeOf_spec] at h ⊢
            omega)]
          simp [dequeLeavesB, backCursorLeaves, ARTree.leavesOf]
        | inner pfx children =>
          rw [stepB]
          dsimp only
          rw [ih (children.reverse :: cur2 :: rest) (by
            have hrev := list_sizeOf_reverse children
            simp only [List.cons.sizeOf_spec, Prod.mk.sizeOf_spec,
              ARTree.inner.sizeOf_spec] at h ⊢
            omega)]
          have hkey : (ARTree.leavesOf (ARTree.inner pfx children)).reverse
              = backCursorLeaves children.reverse := by
            rw [ARTree.leavesOf]
            exact leaves_reverse_backCursor children
          simp only [dequeLeavesB, List.map_cons, List.flatten_cons,
            backCursorLeaves_append]
          rw [← hkey]
          simp [backCursorLeaves, List.append_assoc]

theorem lex_append_lt (q s1 s2 : List Nat) (b1 b2 : Nat) (h : b1 < b2) :
    List.Lex (fun a c => a < c) (q ++ b1 :: s1) (q ++ b2 :: s2) := by
  induction q with
  | nil => exact List.Lex.rel h
  | cons x q ih => exact List.Lex.cons ih

/-- Two keys that agree on a common prefix and then carry strictly ordered
bytes are strictly ordered in the byte-view order. -/
theorem lex_of_take (k1 k2 base : List Nat) (b1 b2 : Nat) (hb : b1 < b2)
    (h1 : k1.take (base.length + 1) = base ++ [b1])
    (h2 : k2.take (base.length + 1) = base ++ [b2]) :
    List.Lex (fun a c => a < c) k1 k2 := by
  have e1 : k1 = base ++ b1 :: k1.drop (base.length + 1) := by
    conv_lhs => rw [← List.take_append_drop (base.length + 1) k1]
    rw [h1, List.append_assoc, List.singleton_append]
  have e2 : k2 = base ++ b2 :: k2.drop (base.length + 1) := by
    conv_lhs => rw [← List.take_append_drop (base.length + 1) k2]
    rw [h2, List.append_assoc, List.singleton_append]
  rw [e1, e2]
  exact lex_append_lt _ _ _ _ _ hb

/-- The leaves of a well-formed subtree are strictly ascending in the
byte-view order of their keys. -/
theorem leaves_sorted : ∀ (N : Nat) (t : ARTree α), sizeOf t ≤ N →
    ∀ (p : List Nat), t.wf p →
      t.leavesOf.Pairwise (fun x y => List.Lex (fun a c => a < c) x.1 y.1) := by
  intro N
  induction N with
  | zero =>
    intro t ht
    cases t with
    | leaf k v => simp only [ARTree.leaf.sizeOf_spec] at ht; omega
    | inner pfx children => simp only [ARTree.inner.sizeOf_spec] at ht; omega
  | succ N ih =>
    intro t ht p hwf
    cases t with
    | leaf k v => simp [ARTree.leavesOf]
    | inner pfx children =>
      cases hwf with
      | inner _ _ _ hsort hch =>
        simp only [ARTree.leavesOf]
        have haux : ∀ (l : List (Nat × ARTree α)),
            (∀ b c, (b, c) ∈ l → (b, c) ∈ children) →
            (l.map Prod.fst).Pairwise (fun a c => a < c) →
            (ARTree.leavesOfChildren l).Pairwise
              (fun x y => List.Lex (fun a c => a < c) x.1 y.1) := by
          intro l
          induction l with
          | nil =>
            intro _ _
            simp [ARTree.leavesOfChildren]
          | cons x rest ihl =>
            obtain ⟨b, c⟩ := x
            intro hsub hps
            rw [List.map_cons, List.pairwise_cons] at hps
            rw [ARTree.leavesOfChildren, List.pairwise_append]
            have hmemc : (b, c) ∈ children := hsub b c (List.mem_cons_self _ _)
            refine ⟨?_, ?_, ?_⟩
            · have hsz : sizeOf c ≤ N := by
                have := sizeOf_child_lt b c pfx children hmemc
                omega
              exact ih c hsz (p ++ pfx ++ [b]) (hch b c hmemc)
            · exact ihl (fun b2 c2 hm => hsub b2 c2 (List.mem_cons_of_mem _ hm)) hps.2
            · intro x hx y hy
              rw [mem_leavesOfChildren] at hy
              obtain ⟨⟨b2, c2⟩, hm2, hy2⟩ := hy
              have hblt : b < b2 :=
                hps.1 b2 (List.mem_map.mpr ⟨(b2, c2), hm2, rfl⟩)
              have hmemc2 : (b2, c2) ∈ children :=
                hsub b2 c2 (List.mem_cons_of_mem _ hm2)
              obtain ⟨k1, v1⟩ := x
              obtain ⟨k2, v2⟩ := y
              have ht1 := leaves_prefix (sizeOf c) c (le_refl _) _ k1 v1
                (hch b c hmemc) hx
              have ht2 := leaves_prefix (sizeOf c2) c2 (le_refl _) _ k2 v2
                (hch b2 c2 hmemc2) hy2
              have hlen1 : (p ++ pfx ++ [b]).length = (p ++ pfx).length + 1 := by
                rw [List.length_append]
                rfl
              have hlen2 : (p ++ pfx ++ [b2]).length = (p ++ pfx).length + 1 := by
                rw [List.length_append]
                rfl
              rw [hlen1] at ht1
              rw [hlen2] at ht2
              exact lex_of_take k1 k2 (p ++ pfx) b b2 hblt ht1 ht2
        exact haux children (fun _ _ h => h) hsort

/-- C8: from a fresh iterator over a well-formed trie, forward consumption
(next) yields exactly the stored leaves, whose byte-view keys are strictly
ascending, and backward consumption (next_back) yields exactly the reverse
of the forward sequence. -/
theorem iterator_ascending_and_reverse (α : Type) :
    ∀ (pfx p : List Nat) (children : List (Nat × ARTree α)),
      (ARTree.inner pfx children).wf p →
      ∀ fuel1 fuel2, sizeOf [children] ≤ fuel1 →
        sizeOf [children.reverse] ≤ fuel2 →
        consume stepF fuel1 [children] = (ARTree.inner pfx children).leavesOf ∧
        (consume stepF fuel1 [children]).Pairwise
          (fun x y => List.Lex (fun a c => a < c) x.1 y.1) ∧
        consume stepB fuel2 [children.reverse]
          = (consume stepF fuel1 [children]).reverse := by
  intro pfx p children hwf fuel1 fuel2 h1 h2
  have hF : consume stepF fuel1 [children]
      = (ARTree.inner pfx children).leavesOf := by
    rw [consume_stepF fuel1 [children] h1]
    simp [dequeLeaves, ARTree.leavesOf]
  have hB : consume stepB fuel2 [children.reverse]
      = ((ARTree.inner pfx children).leavesOf).reverse := by
    rw [consume_stepB fuel2 [children.reverse] h2]
    simp only [dequeLeavesB, List.map_cons, List.map_nil, List.flatten_cons,
      List.flatten_nil, List.append_nil]
    rw [← leaves_reverse_backCursor]
    rw [ARTree.leavesOf]
  refine ⟨hF, ?_, ?_⟩
  · rw [hF]
    exact leaves_sorted (sizeOf (ARTree.inner pfx children)) _ (le_refl _) p hwf
  · rw [hB, hF]

/-- Witness for C8: on the two-level test tree the forward run is the leaf
list in ascending key order and the backward run is its reverse. -/
theorem iterator_ascending_and_reverse_witness :
    consume stepF 1000000 [exampleChildren]
        = (ARTree.inner [1, 2] exampleChildren).leavesOf ∧
    (consume stepF 1000000 [exampleChildren]).Pairwise
        (fun x y => List.Lex (fun a c => a < c) x.1 y.1) ∧
    consume stepB 1000000 [exampleChildren.reverse]
        = (consume stepF 1000000 [exampleChildren]).reverse :=
  iterator_ascending_and_reverse Nat [1, 2] [] exampleChildren exampleTree_wf
    1000000 1000000 (by decide) (by decide)
